import Mathlib

/-!
Verification of the tic-tac-toe solver core in
`src/screenComponents/game-home/gameHome.tsx`.

The three functions with algorithmic content are embedded here:
`checkWinner` (outcome evaluator), `minimax` (alpha-beta search) and
`getBestMove` (move selector).  The in-place mutate-then-undo discipline of
the source is modelled twice: once as a pure recursion that passes the
updated copy of the board to the recursive call (`minimax`), and once as an
explicit state-passing version that returns the board the caller observes
after the call (`minimaxS`, `getBestMoveS`), so that the restoration
discipline itself is a provable statement.

JavaScript recursion is embedded with an explicit fuel parameter that
strictly bounds the recursion depth; the wrappers instantiate the fuel with
`countNone board + 1`, which is sufficient because every recursive call is
made on a board with strictly fewer empty cells (proved below as the
termination theorem).
-/

set_option maxHeartbeats 1000000
set_option linter.unnecessarySeqFocus false

/-- A player's mark: `'X' | 'O'` in the source. -/
inductive Mark where
  | X : Mark
  | O : Mark
deriving DecidableEq

/-- A cell holds a mark or `null`. -/
abbrev Cell := Option Mark

/-- The board: the source keeps an array of 9 cells (length is a caller
invariant, not enforced by the type, exactly as in the source). -/
abbrev Board := List Cell

/-- Return type of `checkWinner`: `Mark | 'draw' | null`. -/
inductive Outcome where
  | win : Mark → Outcome
  | draw : Outcome
  | ongoing : Outcome
deriving DecidableEq

/-- The JavaScript numbers the solver computes with: integers together with
`-Infinity` and `Infinity`. -/
inductive EInt where
  | negInf : EInt
  | fin : Int → EInt
  | posInf : EInt
deriving DecidableEq

namespace EInt

/-- Boolean comparison on extended integers (JavaScript `<=`). -/
def ble : EInt → EInt → Bool
  | negInf, _ => true
  | _, posInf => true
  | fin a, fin b => decide (a ≤ b)
  | posInf, _ => false
  | fin _, negInf => false

instance : LinearOrder EInt where
  le a b := ble a b = true
  le_refl a := by cases a <;> simp [ble]
  le_trans a b c hab hbc := by
    cases a <;> cases b <;> cases c <;> simp_all [ble] <;> omega
  le_antisymm a b hab hba := by
    cases a <;> cases b <;> simp_all [ble] <;> omega
  le_total a b := by cases a <;> cases b <;> simp [ble] <;> omega
  decidableLE a b := decidable_of_iff (ble a b = true) Iff.rfl

instance (a b : EInt) : Decidable (a ≤ b) := decidable_of_iff (ble a b = true) Iff.rfl

instance (a b : EInt) : Decidable (a < b) := LinearOrder.decidableLT a b

lemma negInf_le (a : EInt) : negInf ≤ a := by
  show ble negInf a = true
  cases a <;> rfl

lemma le_posInf (a : EInt) : a ≤ posInf := by cases a <;> rfl

lemma fin_le_fin {a b : Int} : fin a ≤ fin b ↔ a ≤ b := by
  show ble (fin a) (fin b) = true ↔ a ≤ b
  simp [ble]

lemma not_posInf_le_fin (a : Int) : ¬ posInf ≤ fin a := by
  show ¬ ble posInf (fin a) = true
  simp [ble]

lemma not_fin_le_negInf (a : Int) : ¬ fin a ≤ negInf := by
  show ¬ ble (fin a) negInf = true
  simp [ble]

lemma fin_lt_fin {a b : Int} : fin a < fin b ↔ a < b := by
  rw [lt_iff_le_not_le, fin_le_fin, fin_le_fin]
  omega

lemma negInf_lt_fin (a : Int) : negInf < fin a :=
  lt_of_le_not_le (negInf_le _) (not_fin_le_negInf a)

lemma fin_lt_posInf (a : Int) : fin a < posInf :=
  lt_of_le_not_le (le_posInf _) (not_posInf_le_fin a)

lemma negInf_lt_posInf : negInf < posInf :=
  lt_of_le_not_le (negInf_le _) (by show ¬ ble posInf negInf = true; simp [ble])

end EInt

/-- The 8 win-lines, in the fixed source order: rows, columns, diagonals. -/
def patterns : List (Nat × Nat × Nat) :=
  [(0, 1, 2), (3, 4, 5), (6, 7, 8), (0, 3, 6), (1, 4, 7), (2, 5, 8), (0, 4, 8), (2, 4, 6)]

/-- One iteration of the win-line scan:
`cells[a] && cells[a] === cells[b] && cells[a] === cells[c]`.
Out-of-range reads give `undefined` in JavaScript, which compares like
`null`; `List.getD _ none` mirrors this. -/
def lineMatch (cells : Board) (p : Nat × Nat × Nat) : Option Mark :=
  match cells.getD p.1 none with
  | none => none
  | some m =>
      if cells.getD p.2.1 none = some m ∧ cells.getD p.2.2 none = some m then some m
      else none

/-- The `for (let line of patterns)` loop of `checkWinner`: the first
matching line decides. -/
def findWin (cells : Board) : List (Nat × Nat × Nat) → Option Mark
  | [] => none
  | p :: rest =>
      match lineMatch cells p with
      | some m => some m
      | none => findWin cells rest

/-- `checkWinner` from the source: scan the 8 lines in order; then
`if (cells.every(val => val)) return 'draw'; return null`. -/
def checkWinner (cells : Board) : Outcome :=
  match findWin cells patterns with
  | some m => Outcome.win m
  | none => if cells.all (fun c => c.isSome) then Outcome.draw else Outcome.ongoing

/-- Number of empty cells; bounds the recursion depth of the search. -/
def countNone (board : Board) : Nat := board.countP (fun c => decide (c = none))

/-- The legal-move enumeration
`board.map((val, i) => (val === null ? i : -1)).filter(i => i !== -1)`:
the ascending list of indices holding `null`. -/
def moves (board : Board) : List Nat :=
  (List.range board.length).filter (fun i => decide (board.getD i none = none))

/-- The maximizing `for (let move of moves)` loop of `minimax`, over the
remaining moves, carrying `maxEval` and `alpha`; `break` on `beta <= alpha`. -/
def maxLoop (rec : Board → Nat → Bool → EInt → EInt → EInt) (board : Board) (depth : Nat)
    (beta : EInt) : List Nat → EInt → EInt → EInt
  | [], maxEval, _ => maxEval
  | mv :: rest, maxEval, alpha =>
      let score := rec (board.set mv (some Mark.O)) (depth + 1) false alpha beta
      let maxEval2 := max maxEval score
      let alpha2 := max alpha score
      if beta ≤ alpha2 then maxEval2 else maxLoop rec board depth beta rest maxEval2 alpha2

/-- The minimizing loop of `minimax`, carrying `minEval` and `beta`. -/
def minLoop (rec : Board → Nat → Bool → EInt → EInt → EInt) (board : Board) (depth : Nat)
    (alpha : EInt) : List Nat → EInt → EInt → EInt
  | [], minEval, _ => minEval
  | mv :: rest, minEval, beta =>
      let score := rec (board.set mv (some Mark.X)) (depth + 1) true alpha beta
      let minEval2 := min minEval score
      let beta2 := min beta score
      if beta2 ≤ alpha then minEval2 else minLoop rec board depth alpha rest minEval2 beta2

/-- `minimax` body, fuel-indexed.  Fuel `0` is never reached from the
wrapper (the termination theorem below); the body at positive fuel is the
source's recursion verbatim. -/
def minimaxGo : Nat → Board → Nat → Bool → EInt → EInt → EInt
  | 0, _, _, _, _, _ => EInt.fin 0
  | fuel + 1, board, depth, isCPU, alpha, beta =>
      match checkWinner board with
      | Outcome.win Mark.O => EInt.fin (10 - (depth : Int))
      | Outcome.win Mark.X => EInt.fin ((depth : Int) - 10)
      | Outcome.draw => EInt.fin 0
      | Outcome.ongoing =>
          if isCPU then maxLoop (minimaxGo fuel) board depth beta (moves board) EInt.negInf alpha
          else minLoop (minimaxGo fuel) board depth alpha (moves board) EInt.posInf beta

/-- `minimax(board, depth, isCPU, alpha, beta)` from the source. -/
def minimax (board : Board) (depth : Nat) (isCPU : Bool) (alpha beta : EInt) : EInt :=
  minimaxGo (countNone board + 1) board depth isCPU alpha beta

/-- The `for (let i of candidates)` loop of `getBestMove`, tracking
`topScore` and `bestMove`; update on strict `score > topScore`. -/
def bmLoop (board : Board) : List Nat → EInt → Nat → Nat
  | [], _, best => best
  | i :: rest, top, best =>
      let score := minimax (board.set i (some Mark.O)) 0 false EInt.negInf EInt.posInf
      if top < score then bmLoop board rest score i else bmLoop board rest top best

/-- `getBestMove(currentBoard)` from the source: `topScore = -Infinity`,
`bestMove = 0`, then the candidate loop. -/
def getBestMove (board : Board) : Nat := bmLoop board (moves board) EInt.negInf 0

/-! ## Plain minimax without pruning

Modelled from the spec's wording for the pruning claim: "the same recursion
with the `beta <= alpha` cutoff removed".  Once the cutoff is gone the
`alpha`/`beta` parameters influence nothing, so they are dropped. -/

/-- Maximizing loop of the unpruned search. -/
def npMaxLoop (rec : Board → Nat → Bool → EInt) (board : Board) (depth : Nat) :
    List Nat → EInt → EInt
  | [], maxEval => maxEval
  | mv :: rest, maxEval =>
      npMaxLoop rec board depth rest
        (max maxEval (rec (board.set mv (some Mark.O)) (depth + 1) false))

/-- Minimizing loop of the unpruned search. -/
def npMinLoop (rec : Board → Nat → Bool → EInt) (board : Board) (depth : Nat) :
    List Nat → EInt → EInt
  | [], minEval => minEval
  | mv :: rest, minEval =>
      npMinLoop rec board depth rest
        (min minEval (rec (board.set mv (some Mark.X)) (depth + 1) true))

/-- Unpruned minimax body, fuel-indexed like `minimaxGo`. -/
def npGo : Nat → Board → Nat → Bool → EInt
  | 0, _, _, _ => EInt.fin 0
  | fuel + 1, board, depth, isCPU =>
      match checkWinner board with
      | Outcome.win Mark.O => EInt.fin (10 - (depth : Int))
      | Outcome.win Mark.X => EInt.fin ((depth : Int) - 10)
      | Outcome.draw => EInt.fin 0
      | Outcome.ongoing =>
          if isCPU then npMaxLoop (npGo fuel) board depth (moves board) EInt.negInf
          else npMinLoop (npGo fuel) board depth (moves board) EInt.posInf

/-- Plain minimax without alpha-beta pruning. -/
def npMinimax (board : Board) (depth : Nat) (isCPU : Bool) : EInt :=
  npGo (countNone board + 1) board depth isCPU

/-! ## State-passing embedding of the in-place mutation

The source mutates the board in place (`board[move] = 'O'; ...;
board[move] = null`).  The versions below return, next to the score, the
board as the caller observes it after the call, threading every mutation
exactly as the source performs it. -/

/-- Maximizing loop, threading the mutated board. -/
def maxLoopS (rec : Board → Nat → Bool → EInt → EInt → EInt × Board) (depth : Nat)
    (beta : EInt) : Board → List Nat → EInt → EInt → EInt × Board
  | board, [], maxEval, _ => (maxEval, board)
  | board, mv :: rest, maxEval, alpha =>
      let r := rec (board.set mv (some Mark.O)) (depth + 1) false alpha beta
      let board2 := r.2.set mv none
      let maxEval2 := max maxEval r.1
      let alpha2 := max alpha r.1
      if beta ≤ alpha2 then (maxEval2, board2)
      else maxLoopS rec depth beta board2 rest maxEval2 alpha2

/-- Minimizing loop, threading the mutated board. -/
def minLoopS (rec : Board → Nat → Bool → EInt → EInt → EInt × Board) (depth : Nat)
    (alpha : EInt) : Board → List Nat → EInt → EInt → EInt × Board
  | board, [], minEval, _ => (minEval, board)
  | board, mv :: rest, minEval, beta =>
      let r := rec (board.set mv (some Mark.X)) (depth + 1) true alpha beta
      let board2 := r.2.set mv none
      let minEval2 := min minEval r.1
      let beta2 := min beta r.1
      if beta2 ≤ alpha then (minEval2, board2)
      else minLoopS rec depth alpha board2 rest minEval2 beta2

/-- `minimax` with the observable board threaded through, fuel-indexed. -/
def minimaxGoS : Nat → Board → Nat → Bool → EInt → EInt → EInt × Board
  | 0, board, _, _, _, _ => (EInt.fin 0, board)
  | fuel + 1, board, depth, isCPU, alpha, beta =>
      match checkWinner board with
      | Outcome.win Mark.O => (EInt.fin (10 - (depth : Int)), board)
      | Outcome.win Mark.X => (EInt.fin ((depth : Int) - 10), board)
      | Outcome.draw => (EInt.fin 0, board)
      | Outcome.ongoing =>
          if isCPU then maxLoopS (minimaxGoS fuel) depth beta board (moves board) EInt.negInf alpha
          else minLoopS (minimaxGoS fuel) depth alpha board (moves board) EInt.posInf beta

/-- `minimax` together with the board the caller sees afterwards. -/
def minimaxS (board : Board) (depth : Nat) (isCPU : Bool) (alpha beta : EInt) : EInt × Board :=
  minimaxGoS (countNone board + 1) board depth isCPU alpha beta

/-- `getBestMove` loop with the observable board threaded through. -/
def bmLoopS : Board → List Nat → EInt → Nat → Nat × Board
  | board, [], _, best => (best, board)
  | board, i :: rest, top, best =>
      let r := minimaxS (board.set i (some Mark.O)) 0 false EInt.negInf EInt.posInf
      let board2 := r.2.set i none
      if top < r.1 then bmLoopS board2 rest r.1 i else bmLoopS board2 rest top best

/-- `getBestMove` together with the board the caller sees afterwards. -/
def getBestMoveS (board : Board) : Nat × Board := bmLoopS board (moves board) EInt.negInf 0

/-! ## Self-play driver

Both sides choose their move by calling `getBestMove` on the current board
and place their own mark at the returned index, until the board is
terminal; X moves first, as in the application. -/

/-- The all-empty starting board. -/
def emptyBoard : Board := List.replicate 9 none

/-- Play `n` further moves of best-move self-play. -/
def playFrom : Nat → Board → Bool → Board
  | 0, board, _ => board
  | n + 1, board, xTurn =>
      if checkWinner board = Outcome.ongoing then
        playFrom n (board.set (getBestMove board) (some (if xTurn then Mark.X else Mark.O)))
          (!xTurn)
      else board

/-! ## Outcome evaluator modelled from the specification

`specOutcome` is written from the claim's words, to be compared with the
source's `checkWinner`: the win for a mark is reported exactly when some
win-line of the fixed 8-line set has all three cells equal to that
non-empty mark, the lines being scanned in the fixed order with the first
match deciding; draw if no line matches and no cell is empty; ongoing
otherwise. -/

/-- The mark, if any, holding all three cells of win-line `p`. -/
def specLineWinner (b : Board) (p : Nat × Nat × Nat) : Option Mark :=
  if b.getD p.1 none = some Mark.X ∧ b.getD p.2.1 none = some Mark.X
      ∧ b.getD p.2.2 none = some Mark.X then some Mark.X
  else if b.getD p.1 none = some Mark.O ∧ b.getD p.2.1 none = some Mark.O
      ∧ b.getD p.2.2 none = some Mark.O then some Mark.O
  else none

/-- The outcome as the specification describes it. -/
def specOutcome (b : Board) : Outcome :=
  match patterns.findSome? (specLineWinner b) with
  | some m => Outcome.win m
  | none => if b.any (fun c => decide (c = none)) then Outcome.ongoing else Outcome.draw

/-! ## Evaluation engine

The definitions above mirror the source closely, but kernel reduction of
them duplicates unevaluated recursive calls (call-by-name), which makes
concrete evaluation of a full game search infeasible.  The `fast*`
functions below compute the same values in a reduction-friendly style:
scores are forced to weak head normal form before being shared, the board
is kept as nine separate cells, and Boolean comparisons avoid type-class
dispatch.  They are proved extensionally equal to the reference embedding
and are used only to discharge fully concrete goals. -/

/-- Force an extended integer to weak head normal form before sharing. -/
def forceE {α : Type} (x : EInt) (k : EInt → α) : α :=
  match x with
  | EInt.negInf => k EInt.negInf
  | EInt.fin n => k (EInt.fin n)
  | EInt.posInf => k EInt.posInf

/-- `max` on extended integers via the Boolean comparison. -/
def emax (a b : EInt) : EInt := cond (EInt.ble a b) b a

/-- `min` on extended integers via the Boolean comparison. -/
def emin (a b : EInt) : EInt := cond (EInt.ble a b) a b

/-- First-match winner over the 8 lines, on nine explicit cells. -/
def lineWin : Cell → Cell → Cell → Option Mark
  | none, _, _ => none
  | some m, b, c =>
      cond (decide (b = some m)) (cond (decide (c = some m)) (some m) none) none

/-- `checkWinner` on nine explicit cells. -/
def fastWinner (c0 c1 c2 c3 c4 c5 c6 c7 c8 : Cell) : Outcome :=
  match lineWin c0 c1 c2 with
  | some m => Outcome.win m
  | none =>
  match lineWin c3 c4 c5 with
  | some m => Outcome.win m
  | none =>
  match lineWin c6 c7 c8 with
  | some m => Outcome.win m
  | none =>
  match lineWin c0 c3 c6 with
  | some m => Outcome.win m
  | none =>
  match lineWin c1 c4 c7 with
  | some m => Outcome.win m
  | none =>
  match lineWin c2 c5 c8 with
  | some m => Outcome.win m
  | none =>
  match lineWin c0 c4 c8 with
  | some m => Outcome.win m
  | none =>
  match lineWin c2 c4 c6 with
  | some m => Outcome.win m
  | none =>
      cond (c0.isSome && (c1.isSome && (c2.isSome && (c3.isSome && (c4.isSome && (c5.isSome
        && (c6.isSome && (c7.isSome && (c8.isSome && true)))))))))
        Outcome.draw Outcome.ongoing

/-- Prepend index `n` when the cell is empty. -/
def consIfEmpty (n : Nat) (c : Cell) (rest : List Nat) : List Nat :=
  match c with
  | none => n :: rest
  | some _ => rest

/-- `moves` on nine explicit cells. -/
def fastMoves (c0 c1 c2 c3 c4 c5 c6 c7 c8 : Cell) : List Nat :=
  consIfEmpty 0 c0 (consIfEmpty 1 c1 (consIfEmpty 2 c2 (consIfEmpty 3 c3 (consIfEmpty 4 c4
    (consIfEmpty 5 c5 (consIfEmpty 6 c6 (consIfEmpty 7 c7 (consIfEmpty 8 c8 []))))))))

/-- Apply `k` to the nine cells with cell `i` replaced by `v`
(out-of-range `i` leaves the cells unchanged, as `List.set` does). -/
def callSet {α : Type} (k : Cell → Cell → Cell → Cell → Cell → Cell → Cell → Cell → Cell → α)
    (c0 c1 c2 c3 c4 c5 c6 c7 c8 : Cell) (i : Nat) (v : Cell) : α :=
  match i with
  | 0 => k v c1 c2 c3 c4 c5 c6 c7 c8
  | 1 => k c0 v c2 c3 c4 c5 c6 c7 c8
  | 2 => k c0 c1 v c3 c4 c5 c6 c7 c8
  | 3 => k c0 c1 c2 v c4 c5 c6 c7 c8
  | 4 => k c0 c1 c2 c3 v c5 c6 c7 c8
  | 5 => k c0 c1 c2 c3 c4 v c6 c7 c8
  | 6 => k c0 c1 c2 c3 c4 c5 v c7 c8
  | 7 => k c0 c1 c2 c3 c4 c5 c6 v c8
  | 8 => k c0 c1 c2 c3 c4 c5 c6 c7 v
  | _ + 9 => k c0 c1 c2 c3 c4 c5 c6 c7 c8

/-- Maximizing loop of the evaluation engine. -/
def fastMaxLoop (rec : Cell → Cell → Cell → Cell → Cell → Cell → Cell → Cell → Cell →
      Nat → Bool → EInt → EInt → EInt)
    (c0 c1 c2 c3 c4 c5 c6 c7 c8 : Cell) (depth : Nat) (beta : EInt) :
    List Nat → EInt → EInt → EInt
  | [], maxEval, _ => maxEval
  | mv :: rest, maxEval, alpha =>
      forceE (callSet (fun d0 d1 d2 d3 d4 d5 d6 d7 d8 =>
          rec d0 d1 d2 d3 d4 d5 d6 d7 d8 (depth + 1) false alpha beta)
          c0 c1 c2 c3 c4 c5 c6 c7 c8 mv (some Mark.O)) (fun score =>
        cond (EInt.ble beta (emax alpha score)) (emax maxEval score)
          (fastMaxLoop rec c0 c1 c2 c3 c4 c5 c6 c7 c8 depth beta rest
            (emax maxEval score) (emax alpha score)))

/-- Minimizing loop of the evaluation engine. -/
def fastMinLoop (rec : Cell → Cell → Cell → Cell → Cell → Cell → Cell → Cell → Cell →
      Nat → Bool → EInt → EInt → EInt)
    (c0 c1 c2 c3 c4 c5 c6 c7 c8 : Cell) (depth : Nat) (alpha : EInt) :
    List Nat → EInt → EInt → EInt
  | [], minEval, _ => minEval
  | mv :: rest, minEval, beta =>
      forceE (callSet (fun d0 d1 d2 d3 d4 d5 d6 d7 d8 =>
          rec d0 d1 d2 d3 d4 d5 d6 d7 d8 (depth + 1) true alpha beta)
          c0 c1 c2 c3 c4 c5 c6 c7 c8 mv (some Mark.X)) (fun score =>
        cond (EInt.ble (emin beta score) alpha) (emin minEval score)
          (fastMinLoop rec c0 c1 c2 c3 c4 c5 c6 c7 c8 depth alpha rest
            (emin minEval score) (emin beta score)))

/-- `minimaxGo` of the evaluation engine, on nine explicit cells. -/
def fastGo : Nat → Cell → Cell → Cell → Cell → Cell → Cell → Cell → Cell → Cell →
    Nat → Bool → EInt → EInt → EInt
  | 0, _, _, _, _, _, _, _, _, _, _, _, _, _ => EInt.fin 0
  | fuel + 1, c0, c1, c2, c3, c4, c5, c6, c7, c8, depth, isCPU, alpha, beta =>
      match fastWinner c0 c1 c2 c3 c4 c5 c6 c7 c8 with
      | Outcome.win Mark.O => EInt.fin (10 - (depth : Int))
      | Outcome.win Mark.X => EInt.fin ((depth : Int) - 10)
      | Outcome.draw => EInt.fin 0
      | Outcome.ongoing =>
          cond isCPU
            (fastMaxLoop (fastGo fuel) c0 c1 c2 c3 c4 c5 c6 c7 c8 depth beta
              (fastMoves c0 c1 c2 c3 c4 c5 c6 c7 c8) EInt.negInf alpha)
            (fastMinLoop (fastGo fuel) c0 c1 c2 c3 c4 c5 c6 c7 c8 depth alpha
              (fastMoves c0 c1 c2 c3 c4 c5 c6 c7 c8) EInt.posInf beta)

/-- Candidate score in the evaluation engine's best-move loop. -/
def fastScore (c0 c1 c2 c3 c4 c5 c6 c7 c8 : Cell) (i : Nat) : EInt :=
  callSet (fun d0 d1 d2 d3 d4 d5 d6 d7 d8 =>
      fastGo (countNone [d0, d1, d2, d3, d4, d5, d6, d7, d8] + 1) d0 d1 d2 d3 d4 d5 d6 d7 d8
        0 false EInt.negInf EInt.posInf)
    c0 c1 c2 c3 c4 c5 c6 c7 c8 i (some Mark.O)

/-- Best-move loop of the evaluation engine. -/
def fastBmLoop (c0 c1 c2 c3 c4 c5 c6 c7 c8 : Cell) : List Nat → EInt → Nat → Nat
  | [], _, best => best
  | i :: rest, top, best =>
      forceE (fastScore c0 c1 c2 c3 c4 c5 c6 c7 c8 i) (fun score =>
        cond (EInt.ble score top) (fastBmLoop c0 c1 c2 c3 c4 c5 c6 c7 c8 rest top best)
          (fastBmLoop c0 c1 c2 c3 c4 c5 c6 c7 c8 rest score i))

/-- `getBestMove` of the evaluation engine. -/
def fastBestMove (board : Board) : Nat :=
  match board with
  | [c0, c1, c2, c3, c4, c5, c6, c7, c8] =>
      fastBmLoop c0 c1 c2 c3 c4 c5 c6 c7 c8 (fastMoves c0 c1 c2 c3 c4 c5 c6 c7 c8)
        EInt.negInf 0
  | _ => getBestMove board

/-- Force a cell to weak head normal form before sharing. -/
def forceCell {α : Type} (c : Cell) (k : Cell → α) : α :=
  match c with
  | none => k none
  | some Mark.X => k (some Mark.X)
  | some Mark.O => k (some Mark.O)

/-- Force a board, cell by cell, before sharing. -/
def forceBoard {α : Type} : Board → (Board → α) → α
  | [], k => k []
  | c :: t, k => forceCell c (fun c2 => forceBoard t (fun t2 => k (c2 :: t2)))

/-- Force a natural number to weak head normal form before sharing. -/
def forceN {α : Type} (n : Nat) (k : Nat → α) : α :=
  match n with
  | 0 => k 0
  | Nat.succ m => k (Nat.succ m)

/-- `playFrom` of the evaluation engine. -/
def fastPlayFrom : Nat → Board → Bool → Board
  | 0, board, _ => board
  | n + 1, board, xTurn =>
      match checkWinner board with
      | Outcome.ongoing =>
          forceN (fastBestMove board) (fun m =>
            forceBoard (board.set m (some (cond xTurn Mark.X Mark.O)))
              (fun b2 => fastPlayFrom n b2 (!xTurn)))
      | _ => board

/-! ## Order facts -/

lemma EInt.cond_ble {γ : Type} (x y : EInt) (A B : γ) :
    cond (EInt.ble x y) A B = if x ≤ y then A else B := by
  by_cases h : x ≤ y
  · have hb : EInt.ble x y = true := h
    rw [if_pos h, hb]
    rfl
  · have hb : EInt.ble x y = false := Bool.eq_false_iff.mpr h
    rw [if_neg h, hb]
    rfl

lemma EInt.cond_ble_lt {γ : Type} (s t : EInt) (A B : γ) :
    cond (EInt.ble s t) B A = if t < s then A else B := by
  by_cases h : t < s
  · have hb : EInt.ble s t = false := Bool.eq_false_iff.mpr (not_le_of_lt h)
    rw [if_pos h, hb]
    rfl
  · have hb : EInt.ble s t = true := le_of_not_lt h
    rw [if_neg h, hb]
    rfl

lemma emax_eq (a b : EInt) : emax a b = max a b := by
  rw [emax, EInt.cond_ble, max_def]

lemma emin_eq (a b : EInt) : emin a b = min a b := by
  rw [emin, EInt.cond_ble, min_def]

lemma clamp_comm {al be : EInt} (h : al ≤ be) (x : EInt) :
    min be (max al x) = max al (min be x) := by
  rcases le_total x al with h1 | h1
  · rw [max_eq_left h1, min_eq_right h, min_eq_right (le_trans h1 h), max_eq_left h1]
  · rcases le_total x be with h2 | h2
    · rw [max_eq_right h1, min_eq_right h2, max_eq_right h1]
    · rw [max_eq_right h1, min_eq_left h2, max_eq_right h]

/-! ## Board access lemmas -/

lemma getD_set_ne (b : Board) {i j : Nat} (v : Cell) (h : i ≠ j) :
    (b.set i v).getD j none = b.getD j none := by
  rw [List.getD_eq_getElem?_getD, List.getD_eq_getElem?_getD, List.getElem?_set_ne h]

lemma getD_set_self (b : Board) {i : Nat} (v : Cell) (h : i < b.length) :
    (b.set i v).getD i none = v := by
  rw [List.getD_eq_getElem?_getD, List.getElem?_set_self h]
  rfl

lemma getD_set_some_ne {b : Board} {j idx : Nat} {m1 m2 : Mark} (hne : m1 ≠ m2)
    (h : (b.set j (some m1)).getD idx none = some m2) : b.getD idx none = some m2 := by
  by_cases hij : j = idx
  · subst hij
    by_cases hlen : j < b.length
    · rw [getD_set_self b _ hlen] at h
      exact absurd (Option.some.inj h) hne
    · rw [List.set_eq_of_length_le (le_of_not_lt hlen)] at h
      exact h
  · rw [getD_set_ne b _ hij] at h
    exact h

lemma set_none_of_getD_none : ∀ (b : Board) (i : Nat), b.getD i none = none →
    b.set i none = b
  | [], _, _ => rfl
  | c :: t, 0, h => by
      have hc : c = none := h
      rw [hc]
      rfl
  | c :: t, i + 1, h => by
      have ht : t.set i none = t := set_none_of_getD_none t i h
      show c :: t.set i none = c :: t
      rw [ht]

lemma mem_moves {b : Board} {i : Nat} : i ∈ moves b ↔ i < b.length ∧ b.getD i none = none := by
  rw [moves, List.mem_filter, List.mem_range]
  simp only [decide_eq_true_eq]

lemma countNone_set_succ : ∀ (b : Board) (i : Nat) (m : Mark), i < b.length →
    b.getD i none = none → countNone (b.set i (some m)) + 1 = countNone b
  | [], i, m, h1, _ => absurd h1 (by simp)
  | c :: t, 0, m, _, h2 => by
      have hc : c = none := h2
      subst hc
      show countNone (some m :: t) + 1 = countNone (none :: t)
      simp [countNone, List.countP_cons]
  | c :: t, i + 1, m, h1, h2 => by
      have h1' : i < t.length := by simpa using h1
      have ih := countNone_set_succ t i m h1' h2
      show countNone (c :: t.set i (some m)) + 1 = countNone (c :: t)
      simp only [countNone, List.countP_cons] at ih ⊢
      omega

lemma countNone_le (b : Board) : countNone b ≤ b.length := by
  rw [countNone]
  apply List.countP_le_length

lemma countNone_pos {b : Board} {i : Nat} (h1 : i < b.length) (h2 : b.getD i none = none) :
    0 < countNone b := by
  have := countNone_set_succ b i Mark.O h1 h2
  omega

lemma exists_empty_of_not_all {b : Board} (h : b.all (fun c => c.isSome) = false) :
    ∃ i, i < b.length ∧ b.getD i none = none := by
  by_contra hno
  push_neg at hno
  have : b.all (fun c => c.isSome) = true := by
    rw [List.all_eq_true]
    intro x hx
    obtain ⟨i, hi, hgi⟩ := List.getElem_of_mem hx
    cases hcx : x with
    | some m => rfl
    | none =>
        exfalso
        apply hno i hi
        rw [List.getD_eq_getElem?_getD, List.getElem?_eq_getElem hi, hgi, hcx]
        rfl
  rw [this] at h
  exact Bool.noConfusion h

/-! ## Evaluator characterization -/

lemma lineMatch_none_of_getD {b : Board} {p : Nat × Nat × Nat}
    (h1 : b.getD p.1 none = none) : lineMatch b p = none := by
  rw [lineMatch, h1]

lemma lineMatch_ite {b : Board} {p : Nat × Nat × Nat} {m0 : Mark}
    (h1 : b.getD p.1 none = some m0) :
    lineMatch b p = (if b.getD p.2.1 none = some m0 ∧ b.getD p.2.2 none = some m0
      then some m0 else none) := by
  rw [lineMatch, h1]

lemma lineMatch_some_iff {b : Board} {p : Nat × Nat × Nat} {m : Mark} :
    lineMatch b p = some m ↔ b.getD p.1 none = some m ∧ b.getD p.2.1 none = some m
      ∧ b.getD p.2.2 none = some m := by
  cases h1 : b.getD p.1 none with
  | none =>
      rw [lineMatch_none_of_getD h1]
      simp [h1]
  | some m0 =>
      rw [lineMatch_ite h1]
      by_cases h23 : b.getD p.2.1 none = some m0 ∧ b.getD p.2.2 none = some m0
      · rw [if_pos h23]
        constructor
        · intro h
          have hm : m0 = m := Option.some.inj h
          subst hm
          exact ⟨rfl, h23.1, h23.2⟩
        · rintro ⟨ha, _, _⟩
          exact ha
      · rw [if_neg h23]
        constructor
        · intro h
          exact absurd h (by simp)
        · rintro ⟨ha, hb, hc⟩
          have : m0 = m := Option.some.inj ha
          subst this
          exact absurd ⟨hb, hc⟩ h23

lemma findWin_cons_some {b : Board} {p : Nat × Nat × Nat} {m : Mark}
    {l : List (Nat × Nat × Nat)} (h : lineMatch b p = some m) :
    findWin b (p :: l) = some m := by
  rw [findWin, h]

lemma findWin_cons_none {b : Board} {p : Nat × Nat × Nat}
    {l : List (Nat × Nat × Nat)} (h : lineMatch b p = none) :
    findWin b (p :: l) = findWin b l := by
  rw [findWin, h]

lemma findWin_eq_none {b : Board} : ∀ {l : List (Nat × Nat × Nat)},
    findWin b l = none ↔ ∀ p ∈ l, lineMatch b p = none
  | [] => by simp [findWin]
  | p :: rest => by
      cases hm : lineMatch b p with
      | some m =>
          rw [findWin_cons_some hm]
          simp only [List.mem_cons]
          constructor
          · intro h
            exact absurd h (by simp)
          · intro h
            exact absurd (h p (Or.inl rfl)) (by simp [hm])
      | none =>
          rw [findWin_cons_none hm, findWin_eq_none (l := rest)]
          simp only [List.mem_cons]
          constructor
          · intro h q hq
            rcases hq with hq | hq
            · subst hq; exact hm
            · exact h q hq
          · intro h q hq
            exact h q (Or.inr hq)

lemma findWin_some_mem {b : Board} : ∀ {l : List (Nat × Nat × Nat)} {m : Mark},
    findWin b l = some m → ∃ p ∈ l, lineMatch b p = some m
  | [], m, h => absurd h (by simp [findWin])
  | p :: rest, m, h => by
      cases hm : lineMatch b p with
      | some m0 =>
          rw [findWin_cons_some hm] at h
          exact ⟨p, List.mem_cons_self _ _, by rw [hm, Option.some.inj h]⟩
      | none =>
          rw [findWin_cons_none hm] at h
          obtain ⟨q, hq, hmq⟩ := findWin_some_mem h
          exact ⟨q, List.mem_cons_of_mem _ hq, hmq⟩

lemma findWin_isSome {b : Board} {p : Nat × Nat × Nat} {m : Mark} :
    ∀ {l : List (Nat × Nat × Nat)}, p ∈ l → lineMatch b p = some m →
      ∃ m', findWin b l = some m'
  | [], hp, _ => absurd hp (List.not_mem_nil p)
  | q :: rest, hp, hm => by
      cases hq : lineMatch b q with
      | some m0 => exact ⟨m0, findWin_cons_some hq⟩
      | none =>
          rcases List.mem_cons.mp hp with hpq | hpr
          · subst hpq
            rw [hq] at hm
            exact absurd hm (by simp)
          · obtain ⟨m', hm'⟩ := findWin_isSome hpr hm
            exact ⟨m', by rw [findWin_cons_none hq, hm']⟩

lemma checkWinner_of_findWin_some {b : Board} {m : Mark}
    (h : findWin b patterns = some m) : checkWinner b = Outcome.win m := by
  rw [checkWinner, h]

lemma checkWinner_of_findWin_none {b : Board} (h : findWin b patterns = none) :
    checkWinner b = (if b.all (fun c => c.isSome) then Outcome.draw else Outcome.ongoing) := by
  rw [checkWinner, h]

lemma checkWinner_win_match {b : Board} {m : Mark} (h : checkWinner b = Outcome.win m) :
    ∃ p ∈ patterns, lineMatch b p = some m := by
  cases hf : findWin b patterns with
  | some m0 =>
      rw [checkWinner_of_findWin_some hf] at h
      have : m0 = m := Outcome.win.inj h
      subst this
      exact findWin_some_mem hf
  | none =>
      rw [checkWinner_of_findWin_none hf] at h
      split at h <;> exact Outcome.noConfusion h

lemma checkWinner_eq_win_of {b : Board} {m : Mark}
    (hno : ∀ p ∈ patterns, ∀ m', lineMatch b p = some m' → m' = m)
    (hex : ∃ p ∈ patterns, lineMatch b p = some m) : checkWinner b = Outcome.win m := by
  obtain ⟨p, hp, hm⟩ := hex
  obtain ⟨m', hm'⟩ := findWin_isSome hp hm
  obtain ⟨q, hq, hmq⟩ := findWin_some_mem hm'
  have : m' = m := hno q hq m' hmq
  subst this
  exact checkWinner_of_findWin_some hm'

lemma checkWinner_ongoing_parts {b : Board} (h : checkWinner b = Outcome.ongoing) :
    (∀ p ∈ patterns, lineMatch b p = none) ∧ b.all (fun c => c.isSome) = false := by
  cases hf : findWin b patterns with
  | some m0 =>
      rw [checkWinner_of_findWin_some hf] at h
      exact absurd h (by simp)
  | none =>
      rw [checkWinner_of_findWin_none hf] at h
      constructor
      · exact findWin_eq_none.mp hf
      · cases hall : b.all (fun c => c.isSome) with
        | true => rw [hall] at h; exact absurd h (by simp)
        | false => rfl

lemma checkWinner_eq_ongoing_of {b : Board}
    (hf : ∀ p ∈ patterns, lineMatch b p = none)
    (hall : b.all (fun c => c.isSome) = false) : checkWinner b = Outcome.ongoing := by
  rw [checkWinner, findWin_eq_none.mpr hf, hall]
  rfl

lemma checkWinner_eq_draw_of {b : Board}
    (hf : ∀ p ∈ patterns, lineMatch b p = none)
    (hall : b.all (fun c => c.isSome) = true) : checkWinner b = Outcome.draw := by
  rw [checkWinner, findWin_eq_none.mpr hf, hall]
  rfl

lemma not_all_of_getD_none {b : Board} {i : Nat} (h1 : i < b.length)
    (h2 : b.getD i none = none) : b.all (fun c => c.isSome) = false := by
  cases hall : b.all (fun c => c.isSome) with
  | false => rfl
  | true =>
      exfalso
      rw [List.all_eq_true] at hall
      have hmem : (none : Cell) ∈ b := by
        have := List.getElem_mem h1
        rw [List.getD_eq_getElem?_getD, List.getElem?_eq_getElem h1] at h2
        simp only [Option.getD_some] at h2
        rw [h2] at this
        exact this
      have := hall none hmem
      simp at this

lemma moves_ne_nil_of_ongoing {b : Board} (h : checkWinner b = Outcome.ongoing) :
    moves b ≠ [] := by
  obtain ⟨i, hi, hgi⟩ := exists_empty_of_not_all (checkWinner_ongoing_parts h).2
  have : i ∈ moves b := mem_moves.mpr ⟨hi, hgi⟩
  intro he
  rw [he] at this
  exact absurd this (List.not_mem_nil i)

/-! ## Unfolding equations for the search bodies -/

lemma minimaxGo_win_O {b : Board} {n d : Nat} {f : Bool} {al be : EInt}
    (h : checkWinner b = Outcome.win Mark.O) :
    minimaxGo (n + 1) b d f al be = EInt.fin (10 - (d : Int)) := by
  rw [minimaxGo, h]

lemma minimaxGo_win_X {b : Board} {n d : Nat} {f : Bool} {al be : EInt}
    (h : checkWinner b = Outcome.win Mark.X) :
    minimaxGo (n + 1) b d f al be = EInt.fin ((d : Int) - 10) := by
  rw [minimaxGo, h]

lemma minimaxGo_draw {b : Board} {n d : Nat} {f : Bool} {al be : EInt}
    (h : checkWinner b = Outcome.draw) :
    minimaxGo (n + 1) b d f al be = EInt.fin 0 := by
  rw [minimaxGo, h]

lemma minimaxGo_ongoing_max {b : Board} {n d : Nat} {al be : EInt}
    (h : checkWinner b = Outcome.ongoing) :
    minimaxGo (n + 1) b d true al be =
      maxLoop (minimaxGo n) b d be (moves b) EInt.negInf al := by
  rw [minimaxGo, h]
  rfl

lemma minimaxGo_ongoing_min {b : Board} {n d : Nat} {al be : EInt}
    (h : checkWinner b = Outcome.ongoing) :
    minimaxGo (n + 1) b d false al be =
      minLoop (minimaxGo n) b d al (moves b) EInt.posInf be := by
  rw [minimaxGo, h]
  rfl

lemma maxLoop_cons (rec : Board → Nat → Bool → EInt → EInt → EInt) (b : Board) (d : Nat)
    (be : EInt) (mv : Nat) (rest : List Nat) (m a : EInt) :
    maxLoop rec b d be (mv :: rest) m a =
      if be ≤ max a (rec (b.set mv (some Mark.O)) (d + 1) false a be)
      then max m (rec (b.set mv (some Mark.O)) (d + 1) false a be)
      else maxLoop rec b d be rest (max m (rec (b.set mv (some Mark.O)) (d + 1) false a be))
        (max a (rec (b.set mv (some Mark.O)) (d + 1) false a be)) := by
  rw [maxLoop]

lemma minLoop_cons (rec : Board → Nat → Bool → EInt → EInt → EInt) (b : Board) (d : Nat)
    (al : EInt) (mv : Nat) (rest : List Nat) (m be : EInt) :
    minLoop rec b d al (mv :: rest) m be =
      if min be (rec (b.set mv (some Mark.X)) (d + 1) true al be) ≤ al
      then min m (rec (b.set mv (some Mark.X)) (d + 1) true al be)
      else minLoop rec b d al rest (min m (rec (b.set mv (some Mark.X)) (d + 1) true al be))
        (min be (rec (b.set mv (some Mark.X)) (d + 1) true al be)) := by
  rw [minLoop]

lemma npGo_win_O {b : Board} {n d : Nat} {f : Bool} (h : checkWinner b = Outcome.win Mark.O) :
    npGo (n + 1) b d f = EInt.fin (10 - (d : Int)) := by
  rw [npGo, h]

lemma npGo_win_X {b : Board} {n d : Nat} {f : Bool} (h : checkWinner b = Outcome.win Mark.X) :
    npGo (n + 1) b d f = EInt.fin ((d : Int) - 10) := by
  rw [npGo, h]

lemma npGo_draw {b : Board} {n d : Nat} {f : Bool} (h : checkWinner b = Outcome.draw) :
    npGo (n + 1) b d f = EInt.fin 0 := by
  rw [npGo, h]

lemma npGo_ongoing_max {b : Board} {n d : Nat} (h : checkWinner b = Outcome.ongoing) :
    npGo (n + 1) b d true = npMaxLoop (npGo n) b d (moves b) EInt.negInf := by
  rw [npGo, h]
  rfl

lemma npGo_ongoing_min {b : Board} {n d : Nat} (h : checkWinner b = Outcome.ongoing) :
    npGo (n + 1) b d false = npMinLoop (npGo n) b d (moves b) EInt.posInf := by
  rw [npGo, h]
  rfl

/-! ## Unpruned-loop facts -/

lemma npMaxLoop_init_le (rec : Board → Nat → Bool → EInt) (board : Board) (depth : Nat) :
    ∀ (l : List Nat) (x : EInt), x ≤ npMaxLoop rec board depth l x := by
  intro l
  induction l with
  | nil => intro x; exact le_refl x
  | cons mv rest ih =>
      intro x
      rw [npMaxLoop]
      exact le_trans (le_max_left _ _) (ih _)

lemma npMinLoop_init_le (rec : Board → Nat → Bool → EInt) (board : Board) (depth : Nat) :
    ∀ (l : List Nat) (x : EInt), npMinLoop rec board depth l x ≤ x := by
  intro l
  induction l with
  | nil => intro x; exact le_refl x
  | cons mv rest ih =>
      intro x
      rw [npMinLoop]
      exact le_trans (ih _) (min_le_left _ _)

lemma npMaxLoop_le {rec : Board → Nat → Bool → EInt} {board : Board} {depth : Nat} {U : EInt} :
    ∀ {l : List Nat}, (∀ mv ∈ l, rec (board.set mv (some Mark.O)) (depth + 1) false ≤ U) →
      ∀ {x : EInt}, x ≤ U → npMaxLoop rec board depth l x ≤ U := by
  intro l
  induction l with
  | nil => intro _ x hx; exact hx
  | cons mv rest ih =>
      intro hall x hx
      rw [npMaxLoop]
      exact ih (fun q hq => hall q (List.mem_cons_of_mem _ hq))
        (max_le hx (hall mv (List.mem_cons_self _ _)))

lemma npMinLoop_ge {rec : Board → Nat → Bool → EInt} {board : Board} {depth : Nat} {L : EInt} :
    ∀ {l : List Nat}, (∀ mv ∈ l, L ≤ rec (board.set mv (some Mark.X)) (depth + 1) true) →
      ∀ {x : EInt}, L ≤ x → L ≤ npMinLoop rec board depth l x := by
  intro l
  induction l with
  | nil => intro _ x hx; exact hx
  | cons mv rest ih =>
      intro hall x hx
      rw [npMinLoop]
      exact ih (fun q hq => hall q (List.mem_cons_of_mem _ hq))
        (le_min hx (hall mv (List.mem_cons_self _ _)))

lemma le_npMaxLoop_of_mem {rec : Board → Nat → Bool → EInt} {board : Board} {depth : Nat}
    {mv : Nat} : ∀ {l : List Nat}, mv ∈ l → ∀ (x : EInt),
      rec (board.set mv (some Mark.O)) (depth + 1) false ≤ npMaxLoop rec board depth l x := by
  intro l
  induction l with
  | nil => intro h; exact absurd h (List.not_mem_nil mv)
  | cons q rest ih =>
      intro hmem x
      rw [npMaxLoop]
      rcases List.mem_cons.mp hmem with hq | hq
      · subst hq
        exact le_trans (le_max_right _ _) (npMaxLoop_init_le _ _ _ _ _)
      · exact ih hq _

lemma npMinLoop_le_of_mem {rec : Board → Nat → Bool → EInt} {board : Board} {depth : Nat}
    {mv : Nat} : ∀ {l : List Nat}, mv ∈ l → ∀ (x : EInt),
      npMinLoop rec board depth l x ≤ rec (board.set mv (some Mark.X)) (depth + 1) true := by
  intro l
  induction l with
  | nil => intro h; exact absurd h (List.not_mem_nil mv)
  | cons q rest ih =>
      intro hmem x
      rw [npMinLoop]
      rcases List.mem_cons.mp hmem with hq | hq
      · subst hq
        exact le_trans (npMinLoop_init_le _ _ _ _ _) (min_le_right _ _)
      · exact ih hq _

lemma npMaxLoop_factor (rec : Board → Nat → Bool → EInt) (board : Board) (depth : Nat) :
    ∀ (l : List Nat) (x : EInt), npMaxLoop rec board depth l x
      = max x (npMaxLoop rec board depth l EInt.negInf) := by
  intro l
  induction l with
  | nil =>
      intro x
      rw [npMaxLoop, npMaxLoop, max_eq_left (EInt.negInf_le x)]
  | cons mv rest ih =>
      intro x
      rw [npMaxLoop, ih, npMaxLoop, ih (max EInt.negInf _), max_eq_right (EInt.negInf_le _),
        max_assoc]

lemma npMinLoop_factor (rec : Board → Nat → Bool → EInt) (board : Board) (depth : Nat) :
    ∀ (l : List Nat) (x : EInt), npMinLoop rec board depth l x
      = min x (npMinLoop rec board depth l EInt.posInf) := by
  intro l
  induction l with
  | nil =>
      intro x
      rw [npMinLoop, npMinLoop, min_eq_left (EInt.le_posInf x)]
  | cons mv rest ih =>
      intro x
      rw [npMinLoop, ih, npMinLoop, ih (min EInt.posInf _), min_eq_right (EInt.le_posInf _),
        min_assoc]

/-! ## Bounds on the unpruned value -/

lemma npGo_le : ∀ (fuel : Nat) (b : Board) (d : Nat) (f : Bool), d + countNone b ≤ 10 →
    npGo fuel b d f ≤ EInt.fin (10 - (d : Int)) := by
  intro fuel
  induction fuel with
  | zero =>
      intro b d f h
      rw [npGo]
      exact EInt.fin_le_fin.mpr (by omega)
  | succ n ih =>
      intro b d f h
      have hch : ∀ mv ∈ moves b, ∀ (m2 : Mark) (f2 : Bool),
          npGo n (b.set mv (some m2)) (d + 1) f2 ≤ EInt.fin (10 - (d : Int)) := by
        intro mv hmv m2 f2
        obtain ⟨h1, h2⟩ := mem_moves.mp hmv
        have hc := countNone_set_succ b mv m2 h1 h2
        have hd : (d + 1) + countNone (b.set mv (some m2)) ≤ 10 := by omega
        exact le_trans (ih (b.set mv (some m2)) (d + 1) f2 hd)
          (EInt.fin_le_fin.mpr (by omega))
      cases hw : checkWinner b with
      | win m =>
          cases m with
          | O => rw [npGo_win_O hw]
          | X =>
              rw [npGo_win_X hw]
              exact EInt.fin_le_fin.mpr (by omega)
      | draw =>
          rw [npGo_draw hw]
          exact EInt.fin_le_fin.mpr (by omega)
      | ongoing =>
          cases f with
          | true =>
              rw [npGo_ongoing_max hw]
              exact npMaxLoop_le (fun mv hmv => hch mv hmv Mark.O false) (EInt.negInf_le _)
          | false =>
              rw [npGo_ongoing_min hw]
              cases hl : moves b with
              | nil => exact absurd hl (moves_ne_nil_of_ongoing hw)
              | cons mv rest =>
                  have hmem : mv ∈ moves b := by rw [hl]; exact List.mem_cons_self _ _
                  exact le_trans (npMinLoop_le_of_mem (List.mem_cons_self _ _) EInt.posInf)
                    (hch mv hmem Mark.X true)

lemma npGo_ge : ∀ (fuel : Nat) (b : Board) (d : Nat) (f : Bool), d + countNone b ≤ 10 →
    EInt.fin ((d : Int) - 10) ≤ npGo fuel b d f := by
  intro fuel
  induction fuel with
  | zero =>
      intro b d f h
      rw [npGo]
      exact EInt.fin_le_fin.mpr (by omega)
  | succ n ih =>
      intro b d f h
      have hch : ∀ mv ∈ moves b, ∀ (m2 : Mark) (f2 : Bool),
          EInt.fin ((d : Int) - 10) ≤ npGo n (b.set mv (some m2)) (d + 1) f2 := by
        intro mv hmv m2 f2
        obtain ⟨h1, h2⟩ := mem_moves.mp hmv
        have hc := countNone_set_succ b mv m2 h1 h2
        have hd : (d + 1) + countNone (b.set mv (some m2)) ≤ 10 := by omega
        exact le_trans (EInt.fin_le_fin.mpr (by omega))
          (ih (b.set mv (some m2)) (d + 1) f2 hd)
      cases hw : checkWinner b with
      | win m =>
          cases m with
          | O =>
              rw [npGo_win_O hw]
              exact EInt.fin_le_fin.mpr (by omega)
          | X =>
              rw [npGo_win_X hw]
      | draw =>
          rw [npGo_draw hw]
          exact EInt.fin_le_fin.mpr (by omega)
      | ongoing =>
          cases f with
          | false =>
              rw [npGo_ongoing_min hw]
              exact npMinLoop_ge (fun mv hmv => hch mv hmv Mark.X true) (EInt.le_posInf _)
          | true =>
              rw [npGo_ongoing_max hw]
              cases hl : moves b with
              | nil => exact absurd hl (moves_ne_nil_of_ongoing hw)
              | cons mv rest =>
                  have hmem : mv ∈ moves b := by rw [hl]; exact List.mem_cons_self _ _
                  exact le_trans (hch mv hmem Mark.O false)
                    (le_npMaxLoop_of_mem (List.mem_cons_self _ _) EInt.negInf)

/-! ## Finiteness of the unpruned value -/

lemma max_fin {x v : EInt} (hx : ∃ n : Int, x = EInt.fin n) (hv : ∃ n : Int, v = EInt.fin n) :
    ∃ n : Int, max x v = EInt.fin n := by
  rcases max_choice x v with h | h
  · rw [h]; exact hx
  · rw [h]; exact hv

lemma min_fin {x v : EInt} (hx : ∃ n : Int, x = EInt.fin n) (hv : ∃ n : Int, v = EInt.fin n) :
    ∃ n : Int, min x v = EInt.fin n := by
  rcases min_choice x v with h | h
  · rw [h]; exact hx
  · rw [h]; exact hv

lemma npMaxLoop_fin {rec : Board → Nat → Bool → EInt} {board : Board} {depth : Nat} :
    ∀ {l : List Nat}, (∀ mv ∈ l, ∃ n : Int,
        rec (board.set mv (some Mark.O)) (depth + 1) false = EInt.fin n) →
      ∀ {x : EInt}, (∃ n : Int, x = EInt.fin n) →
        ∃ n : Int, npMaxLoop rec board depth l x = EInt.fin n := by
  intro l
  induction l with
  | nil => intro _ x hx; rw [npMaxLoop]; exact hx
  | cons mv rest ih =>
      intro hall x hx
      rw [npMaxLoop]
      exact ih (fun q hq => hall q (List.mem_cons_of_mem _ hq))
        (max_fin hx (hall mv (List.mem_cons_self _ _)))

lemma npMinLoop_fin {rec : Board → Nat → Bool → EInt} {board : Board} {depth : Nat} :
    ∀ {l : List Nat}, (∀ mv ∈ l, ∃ n : Int,
        rec (board.set mv (some Mark.X)) (depth + 1) true = EInt.fin n) →
      ∀ {x : EInt}, (∃ n : Int, x = EInt.fin n) →
        ∃ n : Int, npMinLoop rec board depth l x = EInt.fin n := by
  intro l
  induction l with
  | nil => intro _ x hx; rw [npMinLoop]; exact hx
  | cons mv rest ih =>
      intro hall x hx
      rw [npMinLoop]
      exact ih (fun q hq => hall q (List.mem_cons_of_mem _ hq))
        (min_fin hx (hall mv (List.mem_cons_self _ _)))

lemma npGo_fin : ∀ (fuel : Nat) (b : Board) (d : Nat) (f : Bool),
    ∃ n : Int, npGo fuel b d f = EInt.fin n := by
  intro fuel
  induction fuel with
  | zero =>
      intro b d f
      exact ⟨0, by rw [npGo]⟩
  | succ n ih =>
      intro b d f
      cases hw : checkWinner b with
      | win m =>
          cases m with
          | O => exact ⟨10 - (d : Int), npGo_win_O hw⟩
          | X => exact ⟨(d : Int) - 10, npGo_win_X hw⟩
      | draw => exact ⟨0, npGo_draw hw⟩
      | ongoing =>
          cases f with
          | true =>
              rw [npGo_ongoing_max hw]
              cases hl : moves b with
              | nil => exact absurd hl (moves_ne_nil_of_ongoing hw)
              | cons mv rest =>
                  rw [npMaxLoop, max_eq_right (EInt.negInf_le _)]
                  exact npMaxLoop_fin (fun q _ => ih _ _ _) (ih _ _ _)
          | false =>
              rw [npGo_ongoing_min hw]
              cases hl : moves b with
              | nil => exact absurd hl (moves_ne_nil_of_ongoing hw)
              | cons mv rest =>
                  rw [npMinLoop, min_eq_right (EInt.le_posInf _)]
                  exact npMinLoop_fin (fun q _ => ih _ _ _) (ih _ _ _)

/-! ## Wrapper-level equations for the unpruned search -/

lemma npMinimax_win_O {b : Board} {d : Nat} {f : Bool} (h : checkWinner b = Outcome.win Mark.O) :
    npMinimax b d f = EInt.fin (10 - (d : Int)) := npGo_win_O h

lemma npMinimax_win_X {b : Board} {d : Nat} {f : Bool} (h : checkWinner b = Outcome.win Mark.X) :
    npMinimax b d f = EInt.fin ((d : Int) - 10) := npGo_win_X h

lemma npMinimax_draw {b : Board} {d : Nat} {f : Bool} (h : checkWinner b = Outcome.draw) :
    npMinimax b d f = EInt.fin 0 := npGo_draw h

lemma npMinimax_ongoing_max {b : Board} {d : Nat} (h : checkWinner b = Outcome.ongoing) :
    npMinimax b d true = npMaxLoop (npGo (countNone b)) b d (moves b) EInt.negInf :=
  npGo_ongoing_max h

lemma npMinimax_ongoing_min {b : Board} {d : Nat} (h : checkWinner b = Outcome.ongoing) :
    npMinimax b d false = npMinLoop (npGo (countNone b)) b d (moves b) EInt.posInf :=
  npGo_ongoing_min h

lemma npGo_count_child {b : Board} {mv : Nat} (m : Mark) (h : mv ∈ moves b) (d : Nat) (f : Bool) :
    npGo (countNone b) (b.set mv (some m)) d f = npMinimax (b.set mv (some m)) d f := by
  obtain ⟨h1, h2⟩ := mem_moves.mp h
  have hc := countNone_set_succ b mv m h1 h2
  rw [npMinimax, hc]

lemma npMinimax_le {b : Board} {d : Nat} {f : Bool} (h : d + countNone b ≤ 10) :
    npMinimax b d f ≤ EInt.fin (10 - (d : Int)) := npGo_le _ b d f h

lemma npMinimax_ge {b : Board} {d : Nat} {f : Bool} (h : d + countNone b ≤ 10) :
    EInt.fin ((d : Int) - 10) ≤ npMinimax b d f := npGo_ge _ b d f h

lemma npMinimax_fin (b : Board) (d : Nat) (f : Bool) :
    ∃ n : Int, npMinimax b d f = EInt.fin n := npGo_fin _ b d f

/-! ## Alpha-beta pruning does not change the value

The invariant is the classical one: inside the window the pruned and
unpruned values agree, outside it they clamp to the same bound.  The
clamped value `min beta (max alpha v)` is preserved by the pruned search. -/

lemma maxLoop_clamp (recAB : Board → Nat → Bool → EInt → EInt → EInt)
    (recNP : Board → Nat → Bool → EInt) (board : Board) (d : Nat) (al be : EInt)
    (hrec : ∀ (b2 : Board) (a2 : EInt), a2 < be →
      min be (max a2 (recAB b2 (d + 1) false a2 be)) =
        min be (max a2 (recNP b2 (d + 1) false))) :
    ∀ (l : List Nat) (m a : EInt), a = max al m → a < be →
      min be (max al (maxLoop recAB board d be l m a)) =
        min be (max al (npMaxLoop recNP board d l m)) := by
  intro l
  induction l with
  | nil => intro m a _ _; rw [maxLoop, npMaxLoop]
  | cons mv rest ih =>
      intro m a hinv halt
      rw [maxLoop_cons, npMaxLoop]
      set s := recAB (board.set mv (some Mark.O)) (d + 1) false a be with hs
      set v := recNP (board.set mv (some Mark.O)) (d + 1) false with hv
      have hstar : min be (max a s) = min be (max a v) :=
        hrec (board.set mv (some Mark.O)) a halt
      by_cases hcut : be ≤ max a s
      · rw [if_pos hcut]
        have hmax_s : max a s = s := by
          rcases max_choice a s with h | h
          · rw [h] at hcut
            exact absurd (lt_of_lt_of_le halt hcut) (lt_irrefl a)
          · exact h
        have hs_ge : be ≤ s := by rw [hmax_s] at hcut; exact hcut
        have h1 : min be (max a s) = be := by rw [hmax_s]; exact min_eq_left hs_ge
        have h2 : be ≤ max a v := by
          have hbe : min be (max a v) = be := hstar.symm.trans h1
          have := min_le_right be (max a v)
          rw [hbe] at this
          exact this
        have hv_ge : be ≤ v := by
          rcases max_choice a v with h | h
          · rw [h] at h2
            exact absurd (lt_of_lt_of_le halt h2) (lt_irrefl a)
          · rw [h] at h2
            exact h2
        have hL : be ≤ max al (max m s) :=
          le_trans hs_ge (le_trans (le_max_right m s) (le_max_right al _))
        have hR : be ≤ max al (npMaxLoop recNP board d rest (max m v)) := by
          have h3 : be ≤ npMaxLoop recNP board d rest (max m v) :=
            le_trans hv_ge (le_trans (le_max_right m v) (npMaxLoop_init_le _ _ _ _ _))
          exact le_trans h3 (le_max_right al _)
        rw [min_eq_left hL, min_eq_left hR]
      · rw [if_neg hcut]
        have halt2 : max a s < be := lt_of_not_le hcut
        have hinv2 : max a s = max al (max m s) := by
          rw [hinv]
          exact max_assoc al m s
        rw [ih (max m s) (max a s) hinv2 halt2]
        by_cases hs_le : s ≤ a
        · have h1 : min be (max a s) = a := by
            rw [max_eq_left hs_le]
            exact min_eq_right (le_of_lt halt)
          have h2 : min be (max a v) = a := hstar.symm.trans h1
          have hv_le : v ≤ a := by
            rcases min_choice be (max a v) with h | h
            · rw [h] at h2
              exact absurd h2 (ne_of_gt halt)
            · rw [h] at h2
              rcases max_choice a v with h3 | h3
              · have h4 := le_max_right a v
                rw [h3] at h4
                exact h4
              · rw [h3] at h2
                exact le_of_eq h2
          have key : ∀ w : EInt, w ≤ a →
              max al (max (max m w) (npMaxLoop recNP board d rest EInt.negInf)) =
                max (max al m) (npMaxLoop recNP board d rest EInt.negInf) := by
            intro w hw
            rw [← max_assoc, ← max_assoc, ← hinv, max_eq_left hw, hinv]
          rw [npMaxLoop_factor recNP board d rest (max m s),
            npMaxLoop_factor recNP board d rest (max m v), key s hs_le, key v hv_le]
        · have ha_lt_s : a < s := lt_of_not_le hs_le
          have hmax_s : max a s = s := max_eq_right (le_of_lt ha_lt_s)
          have hs_lt_be : s < be := by rw [hmax_s] at halt2; exact halt2
          have h1 : min be (max a s) = s := by
            rw [hmax_s]
            exact min_eq_right (le_of_lt hs_lt_be)
          have h2 : min be (max a v) = s := hstar.symm.trans h1
          have hv_eq : v = s := by
            rcases min_choice be (max a v) with h | h
            · rw [h] at h2
              exact absurd h2.symm (ne_of_lt hs_lt_be)
            · rw [h] at h2
              rcases max_choice a v with h3 | h3
              · rw [h3] at h2
                exact absurd h2 (ne_of_lt ha_lt_s)
              · rw [h3] at h2
                exact h2
          rw [hv_eq]

lemma minLoop_clamp (recAB : Board → Nat → Bool → EInt → EInt → EInt)
    (recNP : Board → Nat → Bool → EInt) (board : Board) (d : Nat) (al be : EInt)
    (hrec : ∀ (b2 : Board) (b3 : EInt), al < b3 →
      max al (min b3 (recAB b2 (d + 1) true al b3)) =
        max al (min b3 (recNP b2 (d + 1) true))) :
    ∀ (l : List Nat) (m bta : EInt), bta = min be m → al < bta →
      max al (min be (minLoop recAB board d al l m bta)) =
        max al (min be (npMinLoop recNP board d l m)) := by
  intro l
  induction l with
  | nil => intro m bta _ _; rw [minLoop, npMinLoop]
  | cons mv rest ih =>
      intro m bta hinv halt
      rw [minLoop_cons, npMinLoop]
      set s := recAB (board.set mv (some Mark.X)) (d + 1) true al bta with hs
      set v := recNP (board.set mv (some Mark.X)) (d + 1) true with hv
      have hstar : max al (min bta s) = max al (min bta v) :=
        hrec (board.set mv (some Mark.X)) bta halt
      by_cases hcut : min bta s ≤ al
      · rw [if_pos hcut]
        have hmin_s : min bta s = s := by
          rcases min_choice bta s with h | h
          · rw [h] at hcut
            exact absurd (lt_of_lt_of_le halt hcut) (lt_irrefl al)
          · exact h
        have hs_le : s ≤ al := by rw [hmin_s] at hcut; exact hcut
        have h1 : max al (min bta s) = al := by rw [hmin_s]; exact max_eq_left hs_le
        have h2 : min bta v ≤ al := by
          have hal : max al (min bta v) = al := hstar.symm.trans h1
          have := le_max_right al (min bta v)
          rw [hal] at this
          exact this
        have hv_le : v ≤ al := by
          rcases min_choice bta v with h | h
          · rw [h] at h2
            exact absurd (lt_of_lt_of_le halt h2) (lt_irrefl al)
          · rw [h] at h2
            exact h2
        have hL : min be (min m s) ≤ al :=
          le_trans (min_le_right be _) (le_trans (min_le_right m s) hs_le)
        have hR : min be (npMinLoop recNP board d rest (min m v)) ≤ al := by
          have h3 : npMinLoop recNP board d rest (min m v) ≤ al :=
            le_trans (npMinLoop_init_le _ _ _ _ _) (le_trans (min_le_right m v) hv_le)
          exact le_trans (min_le_right be _) h3
        rw [max_eq_left hL, max_eq_left hR]
      · rw [if_neg hcut]
        have halt2 : al < min bta s := lt_of_not_le hcut
        have hinv2 : min bta s = min be (min m s) := by
          rw [hinv]
          exact min_assoc be m s
        rw [ih (min m s) (min bta s) hinv2 halt2]
        by_cases hs_ge : bta ≤ s
        · have h1 : max al (min bta s) = bta := by
            rw [min_eq_left hs_ge]
            exact max_eq_right (le_of_lt halt)
          have h2 : max al (min bta v) = bta := hstar.symm.trans h1
          have hv_ge : bta ≤ v := by
            rcases max_choice al (min bta v) with h | h
            · rw [h] at h2
              exact absurd h2 (ne_of_lt halt)
            · rw [h] at h2
              have h4 := min_le_right bta v
              rw [h2] at h4
              exact h4
          have key : ∀ w : EInt, bta ≤ w →
              min be (min (min m w) (npMinLoop recNP board d rest EInt.posInf)) =
                min (min be m) (npMinLoop recNP board d rest EInt.posInf) := by
            intro w hw
            rw [← min_assoc, ← min_assoc, ← hinv, min_eq_left hw, hinv]
          rw [npMinLoop_factor recNP board d rest (min m s),
            npMinLoop_factor recNP board d rest (min m v), key s hs_ge, key v hv_ge]
        · have hs_lt : s < bta := lt_of_not_le hs_ge
          have hmin_s : min bta s = s := min_eq_right (le_of_lt hs_lt)
          have hal_s : al < s := by rw [hmin_s] at halt2; exact halt2
          have h1 : max al (min bta s) = s := by
            rw [hmin_s]
            exact max_eq_right (le_of_lt hal_s)
          have h2 : max al (min bta v) = s := hstar.symm.trans h1
          have hv_eq : v = s := by
            rcases max_choice al (min bta v) with h | h
            · rw [h] at h2
              exact absurd h2 (ne_of_lt hal_s)
            · rw [h] at h2
              rcases min_choice bta v with h3 | h3
              · rw [h3] at h2
                exact absurd h2.symm (ne_of_lt hs_lt)
              · rw [h3] at h2
                exact h2
          rw [hv_eq]

lemma go_clamp : ∀ (fuel : Nat) (b : Board) (d : Nat) (f : Bool) (al be : EInt), al < be →
    min be (max al (minimaxGo fuel b d f al be)) = min be (max al (npGo fuel b d f)) := by
  intro fuel
  induction fuel with
  | zero => intro b d f al be _; rw [minimaxGo, npGo]
  | succ n ih =>
      intro b d f al be halt
      cases hw : checkWinner b with
      | win m =>
          cases m with
          | O => rw [minimaxGo_win_O hw, npGo_win_O hw]
          | X => rw [minimaxGo_win_X hw, npGo_win_X hw]
      | draw => rw [minimaxGo_draw hw, npGo_draw hw]
      | ongoing =>
          cases f with
          | true =>
              rw [minimaxGo_ongoing_max hw, npGo_ongoing_max hw]
              exact maxLoop_clamp (minimaxGo n) (npGo n) b d al be
                (fun b2 a2 ha2 => ih b2 (d + 1) false a2 be ha2)
                (moves b) EInt.negInf al ((max_eq_left (EInt.negInf_le al)).symm) halt
          | false =>
              rw [minimaxGo_ongoing_min hw, npGo_ongoing_min hw,
                clamp_comm (le_of_lt halt), clamp_comm (le_of_lt halt)]
              exact minLoop_clamp (minimaxGo n) (npGo n) b d al be
                (fun b2 b3 hb3 => by
                  have h := ih b2 (d + 1) true al b3 hb3
                  rw [clamp_comm (le_of_lt hb3), clamp_comm (le_of_lt hb3)] at h
                  exact h)
                (moves b) EInt.posInf be ((min_eq_left (EInt.le_posInf be)).symm) halt

/-- With the initial infinite window, the pruned and unpruned searches
return the same value. -/
lemma minimax_eq_np (b : Board) (d : Nat) (f : Bool) :
    minimax b d f EInt.negInf EInt.posInf = npMinimax b d f := by
  have h := go_clamp (countNone b + 1) b d f EInt.negInf EInt.posInf EInt.negInf_lt_posInf
  rw [min_eq_right (EInt.le_posInf _), min_eq_right (EInt.le_posInf _),
    max_eq_right (EInt.negInf_le _), max_eq_right (EInt.negInf_le _)] at h
  exact h

/-! ## The mutated board is restored -/

lemma maxLoopS_cons (recS : Board → Nat → Bool → EInt → EInt → EInt × Board) (d : Nat)
    (be : EInt) (board : Board) (mv : Nat) (rest : List Nat) (m a : EInt) :
    maxLoopS recS d be board (mv :: rest) m a =
      if be ≤ max a (recS (board.set mv (some Mark.O)) (d + 1) false a be).1
      then (max m (recS (board.set mv (some Mark.O)) (d + 1) false a be).1,
        ((recS (board.set mv (some Mark.O)) (d + 1) false a be).2).set mv none)
      else maxLoopS recS d be (((recS (board.set mv (some Mark.O)) (d + 1) false a be).2).set mv none)
        rest (max m (recS (board.set mv (some Mark.O)) (d + 1) false a be).1)
        (max a (recS (board.set mv (some Mark.O)) (d + 1) false a be).1) := by
  rw [maxLoopS]

lemma minLoopS_cons (recS : Board → Nat → Bool → EInt → EInt → EInt × Board) (d : Nat)
    (al : EInt) (board : Board) (mv : Nat) (rest : List Nat) (m be : EInt) :
    minLoopS recS d al board (mv :: rest) m be =
      if min be (recS (board.set mv (some Mark.X)) (d + 1) true al be).1 ≤ al
      then (min m (recS (board.set mv (some Mark.X)) (d + 1) true al be).1,
        ((recS (board.set mv (some Mark.X)) (d + 1) true al be).2).set mv none)
      else minLoopS recS d al (((recS (board.set mv (some Mark.X)) (d + 1) true al be).2).set mv none)
        rest (min m (recS (board.set mv (some Mark.X)) (d + 1) true al be).1)
        (min be (recS (board.set mv (some Mark.X)) (d + 1) true al be).1) := by
  rw [minLoopS]

lemma set_mark_set_none {board : Board} {mv : Nat} (c : Cell)
    (h : board.getD mv none = none) : (board.set mv c).set mv none = board := by
  rw [List.set_set, set_none_of_getD_none board mv h]

lemma maxLoopS_eq (recS : Board → Nat → Bool → EInt → EInt → EInt × Board)
    (rec : Board → Nat → Bool → EInt → EInt → EInt) (d : Nat) (be : EInt)
    (hrec : ∀ b2 d2 f2 a2 be2, recS b2 d2 f2 a2 be2 = (rec b2 d2 f2 a2 be2, b2)) :
    ∀ (l : List Nat) (board : Board) (m a : EInt), (∀ mv ∈ l, board.getD mv none = none) →
      maxLoopS recS d be board l m a = (maxLoop rec board d be l m a, board) := by
  intro l
  induction l with
  | nil => intro board m a _; rw [maxLoopS, maxLoop]
  | cons mv rest ih =>
      intro board m a hmem
      rw [maxLoopS_cons, hrec, maxLoop_cons]
      dsimp only
      rw [set_mark_set_none (some Mark.O) (hmem mv (List.mem_cons_self _ _))]
      by_cases hcut : be ≤ max a (rec (board.set mv (some Mark.O)) (d + 1) false a be)
      · rw [if_pos hcut, if_pos hcut]
      · rw [if_neg hcut, if_neg hcut,
          ih board _ _ (fun q hq => hmem q (List.mem_cons_of_mem _ hq))]

lemma minLoopS_eq (recS : Board → Nat → Bool → EInt → EInt → EInt × Board)
    (rec : Board → Nat → Bool → EInt → EInt → EInt) (d : Nat) (al : EInt)
    (hrec : ∀ b2 d2 f2 a2 be2, recS b2 d2 f2 a2 be2 = (rec b2 d2 f2 a2 be2, b2)) :
    ∀ (l : List Nat) (board : Board) (m be : EInt), (∀ mv ∈ l, board.getD mv none = none) →
      minLoopS recS d al board l m be = (minLoop rec board d al l m be, board) := by
  intro l
  induction l with
  | nil => intro board m be _; rw [minLoopS, minLoop]
  | cons mv rest ih =>
      intro board m be hmem
      rw [minLoopS_cons, hrec, minLoop_cons]
      dsimp only
      rw [set_mark_set_none (some Mark.X) (hmem mv (List.mem_cons_self _ _))]
      by_cases hcut : min be (rec (board.set mv (some Mark.X)) (d + 1) true al be) ≤ al
      · rw [if_pos hcut, if_pos hcut]
      · rw [if_neg hcut, if_neg hcut,
          ih board _ _ (fun q hq => hmem q (List.mem_cons_of_mem _ hq))]

lemma minimaxGoS_win_O {b : Board} {n d : Nat} {f : Bool} {al be : EInt}
    (h : checkWinner b = Outcome.win Mark.O) :
    minimaxGoS (n + 1) b d f al be = (EInt.fin (10 - (d : Int)), b) := by
  rw [minimaxGoS, h]

lemma minimaxGoS_win_X {b : Board} {n d : Nat} {f : Bool} {al be : EInt}
    (h : checkWinner b = Outcome.win Mark.X) :
    minimaxGoS (n + 1) b d f al be = (EInt.fin ((d : Int) - 10), b) := by
  rw [minimaxGoS, h]

lemma minimaxGoS_draw {b : Board} {n d : Nat} {f : Bool} {al be : EInt}
    (h : checkWinner b = Outcome.draw) :
    minimaxGoS (n + 1) b d f al be = (EInt.fin 0, b) := by
  rw [minimaxGoS, h]

lemma minimaxGoS_ongoing_max {b : Board} {n d : Nat} {al be : EInt}
    (h : checkWinner b = Outcome.ongoing) :
    minimaxGoS (n + 1) b d true al be =
      maxLoopS (minimaxGoS n) d be b (moves b) EInt.negInf al := by
  rw [minimaxGoS, h]
  rfl

lemma minimaxGoS_ongoing_min {b : Board} {n d : Nat} {al be : EInt}
    (h : checkWinner b = Outcome.ongoing) :
    minimaxGoS (n + 1) b d false al be =
      minLoopS (minimaxGoS n) d al b (moves b) EInt.posInf be := by
  rw [minimaxGoS, h]
  rfl

lemma minimaxGoS_eq : ∀ (fuel : Nat) (b : Board) (d : Nat) (f : Bool) (al be : EInt),
    minimaxGoS fuel b d f al be = (minimaxGo fuel b d f al be, b) := by
  intro fuel
  induction fuel with
  | zero => intro b d f al be; rw [minimaxGoS, minimaxGo]
  | succ n ih =>
      intro b d f al be
      cases hw : checkWinner b with
      | win m =>
          cases m with
          | O => rw [minimaxGoS_win_O hw, minimaxGo_win_O hw]
          | X => rw [minimaxGoS_win_X hw, minimaxGo_win_X hw]
      | draw => rw [minimaxGoS_draw hw, minimaxGo_draw hw]
      | ongoing =>
          cases f with
          | true =>
              rw [minimaxGoS_ongoing_max hw, minimaxGo_ongoing_max hw]
              exact maxLoopS_eq (minimaxGoS n) (minimaxGo n) d be ih (moves b) b _ _
                (fun mv hmv => (mem_moves.mp hmv).2)
          | false =>
              rw [minimaxGoS_ongoing_min hw, minimaxGo_ongoing_min hw]
              exact minLoopS_eq (minimaxGoS n) (minimaxGo n) d al ih (moves b) b _ _
                (fun mv hmv => (mem_moves.mp hmv).2)

/-- The state-passing search computes the `minimax` score and hands the
caller back exactly the board it was given. -/
lemma minimaxS_eq (b : Board) (d : Nat) (f : Bool) (al be : EInt) :
    minimaxS b d f al be = (minimax b d f al be, b) :=
  minimaxGoS_eq (countNone b + 1) b d f al be

lemma bmLoop_cons (board : Board) (i : Nat) (rest : List Nat) (top : EInt) (best : Nat) :
    bmLoop board (i :: rest) top best =
      if top < minimax (board.set i (some Mark.O)) 0 false EInt.negInf EInt.posInf
      then bmLoop board rest (minimax (board.set i (some Mark.O)) 0 false EInt.negInf EInt.posInf) i
      else bmLoop board rest top best := by
  rw [bmLoop]

lemma bmLoopS_cons (board : Board) (i : Nat) (rest : List Nat) (top : EInt) (best : Nat) :
    bmLoopS board (i :: rest) top best =
      if top < (minimaxS (board.set i (some Mark.O)) 0 false EInt.negInf EInt.posInf).1
      then bmLoopS (((minimaxS (board.set i (some Mark.O)) 0 false EInt.negInf EInt.posInf).2).set i none)
        rest (minimaxS (board.set i (some Mark.O)) 0 false EInt.negInf EInt.posInf).1 i
      else bmLoopS (((minimaxS (board.set i (some Mark.O)) 0 false EInt.negInf EInt.posInf).2).set i none)
        rest top best := by
  rw [bmLoopS]

lemma bmLoopS_eq : ∀ (l : List Nat) (board : Board) (top : EInt) (best : Nat),
    (∀ i ∈ l, board.getD i none = none) →
      bmLoopS board l top best = (bmLoop board l top best, board) := by
  intro l
  induction l with
  | nil => intro board top best _; rw [bmLoopS, bmLoop]
  | cons i rest ih =>
      intro board top best hmem
      rw [bmLoopS_cons, minimaxS_eq, bmLoop_cons]
      dsimp only
      rw [set_mark_set_none (some Mark.O) (hmem i (List.mem_cons_self _ _))]
      by_cases hcut : top < minimax (board.set i (some Mark.O)) 0 false EInt.negInf EInt.posInf
      · rw [if_pos hcut, if_pos hcut,
          ih board _ _ (fun q hq => hmem q (List.mem_cons_of_mem _ hq))]
      · rw [if_neg hcut, if_neg hcut,
          ih board _ _ (fun q hq => hmem q (List.mem_cons_of_mem _ hq))]

/-- The state-passing move selector computes `getBestMove` and hands back
the board it was given. -/
lemma getBestMoveS_eq (b : Board) : getBestMoveS b = (getBestMove b, b) :=
  bmLoopS_eq (moves b) b EInt.negInf 0 (fun _ hi => (mem_moves.mp hi).2)

/-! ## Well-foundedness of the recursion: any sufficient fuel agrees -/

lemma maxLoop_congr (rec1 rec2 : Board → Nat → Bool → EInt → EInt → EInt) (board : Board)
    (d : Nat) (be : EInt) : ∀ (l : List Nat) (m a : EInt),
    (∀ mv ∈ l, ∀ a2 : EInt, rec1 (board.set mv (some Mark.O)) (d + 1) false a2 be
      = rec2 (board.set mv (some Mark.O)) (d + 1) false a2 be) →
    maxLoop rec1 board d be l m a = maxLoop rec2 board d be l m a := by
  intro l
  induction l with
  | nil => intro m a _; rw [maxLoop, maxLoop]
  | cons mv rest ih =>
      intro m a hrec
      rw [maxLoop_cons, maxLoop_cons, hrec mv (List.mem_cons_self _ _) a,
        ih _ _ (fun q hq a2 => hrec q (List.mem_cons_of_mem _ hq) a2)]

lemma minLoop_congr (rec1 rec2 : Board → Nat → Bool → EInt → EInt → EInt) (board : Board)
    (d : Nat) (al : EInt) : ∀ (l : List Nat) (m be : EInt),
    (∀ mv ∈ l, ∀ be2 : EInt, rec1 (board.set mv (some Mark.X)) (d + 1) true al be2
      = rec2 (board.set mv (some Mark.X)) (d + 1) true al be2) →
    minLoop rec1 board d al l m be = minLoop rec2 board d al l m be := by
  intro l
  induction l with
  | nil => intro m be _; rw [minLoop, minLoop]
  | cons mv rest ih =>
      intro m be hrec
      rw [minLoop_cons, minLoop_cons, hrec mv (List.mem_cons_self _ _) be,
        ih _ _ (fun q hq be2 => hrec q (List.mem_cons_of_mem _ hq) be2)]

lemma countNone_set_lt {b : Board} {i : Nat} (m : Mark) (h : i ∈ moves b) :
    countNone (b.set i (some m)) < countNone b := by
  obtain ⟨h1, h2⟩ := mem_moves.mp h
  have := countNone_set_succ b i m h1 h2
  omega

lemma minimaxGo_fuel : ∀ (f1 f2 : Nat) (b : Board) (d : Nat) (fl : Bool) (al be : EInt),
    countNone b < f1 → countNone b < f2 →
      minimaxGo f1 b d fl al be = minimaxGo f2 b d fl al be := by
  intro f1
  induction f1 with
  | zero => intro f2 b d fl al be h1 _; omega
  | succ n ih =>
      intro f2 b d fl al be h1 h2
      cases f2 with
      | zero => omega
      | succ k =>
          cases hw : checkWinner b with
          | win m =>
              cases m with
              | O => rw [minimaxGo_win_O hw, minimaxGo_win_O hw]
              | X => rw [minimaxGo_win_X hw, minimaxGo_win_X hw]
          | draw => rw [minimaxGo_draw hw, minimaxGo_draw hw]
          | ongoing =>
              cases fl with
              | true =>
                  rw [minimaxGo_ongoing_max hw, minimaxGo_ongoing_max hw]
                  apply maxLoop_congr
                  intro mv hmv a2
                  have hlt := countNone_set_lt Mark.O hmv
                  exact ih k (b.set mv (some Mark.O)) (d + 1) false a2 be
                    (by omega) (by omega)
              | false =>
                  rw [minimaxGo_ongoing_min hw, minimaxGo_ongoing_min hw]
                  apply minLoop_congr
                  intro mv hmv be2
                  have hlt := countNone_set_lt Mark.X hmv
                  exact ih k (b.set mv (some Mark.X)) (d + 1) true al be2
                    (by omega) (by omega)

/-! ## The move-selection loop picks a top-scoring candidate -/

/-- Score the source's `getBestMove` loop assigns to candidate cell `i`. -/
def candScore (board : Board) (i : Nat) : EInt :=
  minimax (board.set i (some Mark.O)) 0 false EInt.negInf EInt.posInf

lemma bmLoop_cons_cand (board : Board) (i : Nat) (rest : List Nat) (top : EInt) (best : Nat) :
    bmLoop board (i :: rest) top best =
      if top < candScore board i then bmLoop board rest (candScore board i) i
      else bmLoop board rest top best := by
  rw [bmLoop]
  rfl

lemma bmLoop_stay (board : Board) : ∀ (l : List Nat) (top : EInt) (best : Nat),
    (∀ j ∈ l, ¬ top < candScore board j) → bmLoop board l top best = best := by
  intro l
  induction l with
  | nil => intro top best _; rw [bmLoop]
  | cons i rest ih =>
      intro top best h
      rw [bmLoop_cons_cand, if_neg (h i (List.mem_cons_self _ _)),
        ih _ _ (fun j hj => h j (List.mem_cons_of_mem _ hj))]

lemma bmLoop_mem_or (board : Board) : ∀ (l : List Nat) (top : EInt) (best : Nat),
    bmLoop board l top best = best ∨ bmLoop board l top best ∈ l := by
  intro l
  induction l with
  | nil => intro top best; exact Or.inl (by rw [bmLoop])
  | cons i rest ih =>
      intro top best
      rw [bmLoop_cons_cand]
      by_cases hi : top < candScore board i
      · rw [if_pos hi]
        rcases ih (candScore board i) i with h | h
        · exact Or.inr (by rw [h]; exact List.mem_cons_self _ _)
        · exact Or.inr (List.mem_cons_of_mem _ h)
      · rw [if_neg hi]
        rcases ih top best with h | h
        · exact Or.inl h
        · exact Or.inr (List.mem_cons_of_mem _ h)

lemma bmLoop_mem_of (board : Board) : ∀ (l : List Nat) (top : EInt) (best : Nat),
    (∃ j ∈ l, top < candScore board j) → bmLoop board l top best ∈ l := by
  intro l
  induction l with
  | nil => intro top best hex; obtain ⟨j, hj, _⟩ := hex; exact absurd hj (List.not_mem_nil j)
  | cons i rest ih =>
      intro top best hex
      rw [bmLoop_cons_cand]
      by_cases hi : top < candScore board i
      · rw [if_pos hi]
        rcases bmLoop_mem_or board rest (candScore board i) i with h | h
        · rw [h]; exact List.mem_cons_self _ _
        · exact List.mem_cons_of_mem _ h
      · rw [if_neg hi]
        obtain ⟨j, hj, htj⟩ := hex
        rcases List.mem_cons.mp hj with he | he
        · subst he; exact absurd htj hi
        · exact List.mem_cons_of_mem _ (ih top best ⟨j, he, htj⟩)

lemma bmLoop_spec (board : Board) (M : EInt) : ∀ (l : List Nat) (top : EInt) (best : Nat),
    (∀ j ∈ l, candScore board j ≤ M) → (∃ i ∈ l, candScore board i = M) → top < M →
      bmLoop board l top best ∈ l ∧ candScore board (bmLoop board l top best) = M := by
  intro l
  induction l with
  | nil =>
      intro top best _ hex _
      obtain ⟨i, hi, _⟩ := hex
      exact absurd hi (List.not_mem_nil i)
  | cons i rest ih =>
      intro top best hall hex htop
      rw [bmLoop_cons_cand]
      by_cases hi : top < candScore board i
      · rw [if_pos hi]
        by_cases hiM : candScore board i = M
        · rw [bmLoop_stay board rest _ i (fun j hj => by
            rw [hiM]
            exact not_lt.mpr (hall j (List.mem_cons_of_mem _ hj)))]
          exact ⟨List.mem_cons_self _ _, hiM⟩
        · have hex2 : ∃ i2 ∈ rest, candScore board i2 = M := by
            obtain ⟨i2, hi2, hM2⟩ := hex
            rcases List.mem_cons.mp hi2 with he | he
            · subst he; exact absurd hM2 hiM
            · exact ⟨i2, he, hM2⟩
          have htop2 : candScore board i < M :=
            lt_of_le_of_ne (hall i (List.mem_cons_self _ _)) hiM
          obtain ⟨hmem, hsc⟩ := ih (candScore board i) i
            (fun j hj => hall j (List.mem_cons_of_mem _ hj)) hex2 htop2
          exact ⟨List.mem_cons_of_mem _ hmem, hsc⟩
      · rw [if_neg hi]
        have hex2 : ∃ i2 ∈ rest, candScore board i2 = M := by
          obtain ⟨i2, hi2, hM2⟩ := hex
          rcases List.mem_cons.mp hi2 with he | he
          · subst he
            rw [hM2] at hi
            exact absurd htop hi
          · exact ⟨i2, he, hM2⟩
        obtain ⟨hmem, hsc⟩ := ih top best
          (fun j hj => hall j (List.mem_cons_of_mem _ hj)) hex2 htop
        exact ⟨List.mem_cons_of_mem _ hmem, hsc⟩

/-! ## Candidate-score facts -/

lemma candScore_eq_np (b : Board) (i : Nat) :
    candScore b i = npMinimax (b.set i (some Mark.O)) 0 false := by
  rw [candScore, minimax_eq_np]

lemma candScore_fin (b : Board) (i : Nat) : ∃ n : Int, candScore b i = EInt.fin n := by
  rw [candScore_eq_np]
  exact npMinimax_fin _ _ _

lemma candScore_win {b : Board} {i : Nat}
    (h : checkWinner (b.set i (some Mark.O)) = Outcome.win Mark.O) :
    candScore b i = EInt.fin 10 := by
  rw [candScore_eq_np, npMinimax_win_O h]
  norm_num

lemma candScore_le_ten {b : Board} (i : Nat) (h9 : b.length = 9) :
    candScore b i ≤ EInt.fin 10 := by
  rw [candScore_eq_np]
  refine le_trans (npMinimax_le ?_) (EInt.fin_le_fin.mpr (by norm_num))
  have := countNone_le (b.set i (some Mark.O))
  rw [List.length_set, h9] at this
  omega

lemma candScore_not_winning {b : Board} {i : Nat} (h9 : b.length = 9)
    (h : checkWinner (b.set i (some Mark.O)) ≠ Outcome.win Mark.O) :
    candScore b i ≤ EInt.fin 9 := by
  rw [candScore_eq_np]
  cases hw : checkWinner (b.set i (some Mark.O)) with
  | win m =>
      cases m with
      | O => exact absurd hw h
      | X =>
          rw [npMinimax_win_X hw]
          exact EInt.fin_le_fin.mpr (by norm_num)
  | draw =>
      rw [npMinimax_draw hw]
      exact EInt.fin_le_fin.mpr (by norm_num)
  | ongoing =>
      rw [npMinimax_ongoing_min hw]
      cases hl : moves (b.set i (some Mark.O)) with
      | nil => exact absurd hl (moves_ne_nil_of_ongoing hw)
      | cons k rest =>
          have hk : k ∈ moves (b.set i (some Mark.O)) := by
            rw [hl]
            exact List.mem_cons_self _ _
          refine le_trans (npMinLoop_le_of_mem (List.mem_cons_self _ _) _) ?_
          rw [npGo_count_child Mark.X hk (0 + 1) true]
          refine le_trans (npMinimax_le ?_) (EInt.fin_le_fin.mpr (by norm_num))
          have := countNone_le ((b.set i (some Mark.O)).set k (some Mark.X))
          rw [List.length_set, List.length_set, h9] at this
          omega

/-! ## Placement and win-line transfer facts -/

lemma lineMatch_set_of_ne {b : Board} {j : Nat} {mj m2 : Mark} {p : Nat × Nat × Nat}
    (hne : mj ≠ m2) (h : lineMatch (b.set j (some mj)) p = some m2) :
    lineMatch b p = some m2 := by
  rw [lineMatch_some_iff] at h ⊢
  exact ⟨getD_set_some_ne hne h.1, getD_set_some_ne hne h.2.1, getD_set_some_ne hne h.2.2⟩

lemma set_no_other_match {b : Board} (hong : checkWinner b = Outcome.ongoing) {j : Nat}
    {mj : Mark} : ∀ p ∈ patterns, ∀ m', lineMatch (b.set j (some mj)) p = some m' → m' = mj := by
  intro p hp m' hm'
  by_contra hne
  have h3 := lineMatch_set_of_ne (fun he => hne he.symm) hm'
  have h4 := (checkWinner_ongoing_parts hong).1 p hp
  rw [h4] at h3
  exact Option.noConfusion h3

lemma ongoing_set_no_match {b : Board} (hong : checkWinner b = Outcome.ongoing) {j : Nat}
    {mj : Mark} (hno : checkWinner (b.set j (some mj)) ≠ Outcome.win mj) :
    ∀ p ∈ patterns, lineMatch (b.set j (some mj)) p = none := by
  intro p hp
  cases hm : lineMatch (b.set j (some mj)) p with
  | none => rfl
  | some m' =>
      exfalso
      have hmm := set_no_other_match hong p hp m' hm
      subst hmm
      exact hno (checkWinner_eq_win_of (set_no_other_match hong) ⟨p, hp, hm⟩)

lemma ongoing_set_ongoing {b : Board} (hong : checkWinner b = Outcome.ongoing) {j : Nat}
    {mj : Mark} (hno : checkWinner (b.set j (some mj)) ≠ Outcome.win mj) {t : Nat}
    (ht : t < b.length) (hnet : j ≠ t) (hte : b.getD t none = none) :
    checkWinner (b.set j (some mj)) = Outcome.ongoing := by
  apply checkWinner_eq_ongoing_of (ongoing_set_no_match hong hno)
  apply not_all_of_getD_none (i := t)
  · rw [List.length_set]
    exact ht
  · rw [getD_set_ne _ _ hnet]
    exact hte

lemma getD_double_set {b : Board} {t k idx : Nat} (ht : t < b.length) (hne : t ≠ k)
    (h : ((b.set t (some Mark.O)).set k (some Mark.X)).getD idx none = some Mark.X) :
    (b.set k (some Mark.X)).getD idx none = some Mark.X := by
  by_cases hik : k = idx
  · subst hik
    by_cases hk_len : k < b.length
    · rw [getD_set_self _ _ hk_len]
    · have hlen2 : (b.set t (some Mark.O)).length ≤ k := by
        rw [List.length_set]
        omega
      rw [List.set_eq_of_length_le hlen2, getD_set_ne _ _ hne] at h
      rw [List.set_eq_of_length_le (by omega : b.length ≤ k)]
      exact h
  · rw [getD_set_ne _ _ hik] at h
    by_cases hit : t = idx
    · subst hit
      rw [getD_set_self _ _ ht] at h
      exact absurd h (by simp)
    · rw [getD_set_ne _ _ hit] at h
      rw [getD_set_ne _ _ hik]
      exact h

lemma getD_transfer_to_double {b : Board} {j t idx : Nat}
    (hje : b.getD j none = none) (ht : t < b.length)
    (h : (b.set t (some Mark.X)).getD idx none = some Mark.X) :
    ((b.set j (some Mark.O)).set t (some Mark.X)).getD idx none = some Mark.X := by
  by_cases hit : t = idx
  · subst hit
    rw [getD_set_self _ _ (by rw [List.length_set]; exact ht)]
  · rw [getD_set_ne _ _ hit] at h
    rw [getD_set_ne _ _ hit]
    have hij : j ≠ idx := by
      intro he
      subst he
      rw [hje] at h
      exact Option.noConfusion h
    rw [getD_set_ne _ _ hij]
    exact h

lemma win_after_two {b : Board} (hong : checkWinner b = Outcome.ongoing) {t k : Nat}
    (ht : t < b.length) (hnetk : t ≠ k)
    (hm : checkWinner ((b.set t (some Mark.O)).set k (some Mark.X)) = Outcome.win Mark.X) :
    checkWinner (b.set k (some Mark.X)) = Outcome.win Mark.X := by
  obtain ⟨p, hp, hmp⟩ := checkWinner_win_match hm
  rw [lineMatch_some_iff] at hmp
  have hmk : lineMatch (b.set k (some Mark.X)) p = some Mark.X :=
    lineMatch_some_iff.mpr ⟨getD_double_set ht hnetk hmp.1, getD_double_set ht hnetk hmp.2.1,
      getD_double_set ht hnetk hmp.2.2⟩
  exact checkWinner_eq_win_of (set_no_other_match hong) ⟨p, hp, hmk⟩

lemma win_after_block {b : Board} {j t : Nat}
    (hje : b.getD j none = none) (ht : t < b.length)
    (hX : checkWinner (b.set t (some Mark.X)) = Outcome.win Mark.X)
    (hongJ : checkWinner (b.set j (some Mark.O)) = Outcome.ongoing) :
    checkWinner ((b.set j (some Mark.O)).set t (some Mark.X)) = Outcome.win Mark.X := by
  obtain ⟨p, hp, hmp⟩ := checkWinner_win_match hX
  rw [lineMatch_some_iff] at hmp
  have hm3 : lineMatch ((b.set j (some Mark.O)).set t (some Mark.X)) p = some Mark.X :=
    lineMatch_some_iff.mpr ⟨getD_transfer_to_double hje ht hmp.1,
      getD_transfer_to_double hje ht hmp.2.1, getD_transfer_to_double hje ht hmp.2.2⟩
  exact checkWinner_eq_win_of (set_no_other_match hongJ) ⟨p, hp, hm3⟩

/-- On a non-terminal board where `t` is a one-move win for X, any other
candidate `j` lets X win at once, scoring at most `1 - 10 = -9`. -/
lemma candScore_blocker_other {b : Board} {t j : Nat} (h9 : b.length = 9)
    (hong : checkWinner b = Outcome.ongoing)
    (ht9 : t < 9) (hte : b.getD t none = none)
    (htwin : checkWinner (b.set t (some Mark.X)) = Outcome.win Mark.X)
    (hnoOj : checkWinner (b.set j (some Mark.O)) ≠ Outcome.win Mark.O)
    (hje : b.getD j none = none) (hnejt : j ≠ t) :
    candScore b j ≤ EInt.fin (-9) := by
  have ht_len : t < b.length := by rw [h9]; exact ht9
  have hongJ : checkWinner (b.set j (some Mark.O)) = Outcome.ongoing :=
    ongoing_set_ongoing hong hnoOj ht_len hnejt hte
  rw [candScore_eq_np, npMinimax_ongoing_min hongJ]
  have htmem : t ∈ moves (b.set j (some Mark.O)) := by
    refine mem_moves.mpr ⟨by rw [List.length_set]; exact ht_len, ?_⟩
    rw [getD_set_ne _ _ hnejt]
    exact hte
  refine le_trans (npMinLoop_le_of_mem htmem _) ?_
  rw [npGo_count_child Mark.X htmem (0 + 1) true,
    npMinimax_win_X (win_after_block hje ht_len htwin hongJ)]
  exact EInt.fin_le_fin.mpr (by omega)

/-- Blocking at `t` removes X's only one-move win, so every continuation
lasts at least two more plies: the blocking candidate scores at least
`2 - 10 = -8`. -/
lemma candScore_blocker_self {b : Board} {t : Nat} (h9 : b.length = 9)
    (hong : checkWinner b = Outcome.ongoing)
    (ht9 : t < 9) (hte : b.getD t none = none)
    (huniq : ∀ k, k < 9 → b.getD k none = none →
      checkWinner (b.set k (some Mark.X)) = Outcome.win Mark.X → k = t)
    (hnoOt : checkWinner (b.set t (some Mark.O)) ≠ Outcome.win Mark.O) :
    EInt.fin (-8) ≤ candScore b t := by
  have ht_len : t < b.length := by rw [h9]; exact ht9
  cases hw : checkWinner (b.set t (some Mark.O)) with
  | win m =>
      exfalso
      obtain ⟨p, hp, hmp⟩ := checkWinner_win_match hw
      have hmO : m = Mark.O := set_no_other_match hong p hp m hmp
      subst hmO
      exact hnoOt hw
  | draw =>
      rw [candScore_eq_np, npMinimax_draw hw]
      exact EInt.fin_le_fin.mpr (by omega)
  | ongoing =>
      rw [candScore_eq_np, npMinimax_ongoing_min hw]
      refine npMinLoop_ge ?_ (EInt.le_posInf _)
      intro k hk
      obtain ⟨hk_len', hk_e'⟩ := mem_moves.mp hk
      have hk_len : k < b.length := by rw [List.length_set] at hk_len'; exact hk_len'
      have hk_ne_t : k ≠ t := by
        intro he
        subst he
        rw [getD_set_self _ _ ht_len] at hk_e'
        exact Option.noConfusion hk_e'
      have hk_e : b.getD k none = none := by
        rw [getD_set_ne _ _ (fun he => hk_ne_t he.symm)] at hk_e'
        exact hk_e'
      rw [npGo_count_child Mark.X hk (0 + 1) true]
      cases hw2 : checkWinner ((b.set t (some Mark.O)).set k (some Mark.X)) with
      | win m =>
          exfalso
          obtain ⟨p, hp, hmp⟩ := checkWinner_win_match hw2
          have hmX : m = Mark.X := set_no_other_match hw p hp m hmp
          subst hmX
          have hkwin : checkWinner (b.set k (some Mark.X)) = Outcome.win Mark.X :=
            win_after_two hong ht_len (fun he => hk_ne_t he.symm) hw2
          exact hk_ne_t (huniq k (by rw [← h9]; exact hk_len) hk_e hkwin)
      | draw =>
          rw [npMinimax_draw hw2]
          exact EInt.fin_le_fin.mpr (by omega)
      | ongoing =>
          rw [npMinimax_ongoing_max hw2]
          cases hl : moves ((b.set t (some Mark.O)).set k (some Mark.X)) with
          | nil => exact absurd hl (moves_ne_nil_of_ongoing hw2)
          | cons g rest =>
              have hg : g ∈ moves ((b.set t (some Mark.O)).set k (some Mark.X)) := by
                rw [hl]
                exact List.mem_cons_self _ _
              refine le_trans ?_ (le_npMaxLoop_of_mem (List.mem_cons_self _ _) EInt.negInf)
              rw [npGo_count_child Mark.O hg (0 + 1 + 1) false]
              refine le_trans (EInt.fin_le_fin.mpr ?_) (npMinimax_ge ?_)
              · omega
              · obtain ⟨hg_len, hg_e⟩ := mem_moves.mp hg
                have c1 := countNone_set_succ b t Mark.O ht_len hte
                have c2 := countNone_set_succ (b.set t (some Mark.O)) k Mark.X hk_len' hk_e'
                have c3 := countNone_set_succ ((b.set t (some Mark.O)).set k (some Mark.X))
                  g Mark.O hg_len hg_e
                have hcl := countNone_le b
                rw [h9] at hcl
                omega

/-- Selecting an immediately winning cell: any candidate whose placement
the evaluator reports as an O win scores exactly 10, every other candidate
scores at most 9, and the strict-improvement loop therefore lands on a
winning candidate. -/
lemma getBestMove_wins {b : Board} {i : Nat} (h9 : b.length = 9) (hi9 : i < 9)
    (hie : b.getD i none = none)
    (hwin : checkWinner (b.set i (some Mark.O)) = Outcome.win Mark.O) :
    b.getD (getBestMove b) none = none ∧
      checkWinner (b.set (getBestMove b) (some Mark.O)) = Outcome.win Mark.O := by
  have himem : i ∈ moves b := mem_moves.mpr ⟨by rw [h9]; exact hi9, hie⟩
  have hall : ∀ j ∈ moves b, candScore b j ≤ EInt.fin 10 := fun j _ => candScore_le_ten j h9
  obtain ⟨hmem, hsc⟩ := bmLoop_spec b (EInt.fin 10) (moves b) EInt.negInf 0 hall
    ⟨i, himem, candScore_win hwin⟩ (EInt.negInf_lt_fin 10)
  have hg : getBestMove b = bmLoop b (moves b) EInt.negInf 0 := rfl
  rw [← hg] at hmem hsc
  refine ⟨(mem_moves.mp hmem).2, ?_⟩
  by_contra hno
  have hle := candScore_not_winning h9 hno
  rw [hsc] at hle
  exact absurd (EInt.fin_le_fin.mp hle) (by omega)

/-- Forced block: when `t` is X's unique one-move win and O has no
one-move win, the selector returns `t`. -/
lemma getBestMove_blocks {b : Board} {t : Nat} (h9 : b.length = 9)
    (hong : checkWinner b = Outcome.ongoing)
    (ht9 : t < 9) (hte : b.getD t none = none)
    (htwin : checkWinner (b.set t (some Mark.X)) = Outcome.win Mark.X)
    (huniq : ∀ k, k < 9 → b.getD k none = none →
      checkWinner (b.set k (some Mark.X)) = Outcome.win Mark.X → k = t)
    (hnoO : ∀ k, k < 9 → b.getD k none = none →
      checkWinner (b.set k (some Mark.O)) ≠ Outcome.win Mark.O) :
    getBestMove b = t := by
  have ht_len : t < b.length := by rw [h9]; exact ht9
  have htmemb : t ∈ moves b := mem_moves.mpr ⟨ht_len, hte⟩
  have hMge : EInt.fin (-8) ≤ candScore b t :=
    candScore_blocker_self h9 hong ht9 hte huniq (hnoO t ht9 hte)
  have hother : ∀ j ∈ moves b, j ≠ t → candScore b j ≤ EInt.fin (-9) := by
    intro j hj hne
    obtain ⟨hj_len, hj_e⟩ := mem_moves.mp hj
    exact candScore_blocker_other h9 hong ht9 hte htwin
      (hnoO j (by rw [← h9]; exact hj_len) hj_e) hj_e hne
  have hall : ∀ j ∈ moves b, candScore b j ≤ candScore b t := by
    intro j hj
    by_cases hje : j = t
    · subst hje; exact le_refl _
    · exact le_trans (hother j hj hje) (le_trans (EInt.fin_le_fin.mpr (by omega)) hMge)
  obtain ⟨hmem, hsc⟩ := bmLoop_spec b (candScore b t) (moves b) EInt.negInf 0 hall
    ⟨t, htmemb, rfl⟩ (lt_of_lt_of_le (EInt.negInf_lt_fin (-8)) hMge)
  have hg : getBestMove b = bmLoop b (moves b) EInt.negInf 0 := rfl
  rw [← hg] at hmem hsc
  by_contra hne
  have hle := hother (getBestMove b) hmem hne
  rw [hsc] at hle
  have hcontra : EInt.fin (-8) ≤ EInt.fin (-9) := le_trans hMge hle
  exact absurd (EInt.fin_le_fin.mp hcontra) (by omega)

/-! ## The evaluation engine computes the reference functions -/

lemma forceE_eq {α : Type} (x : EInt) (k : EInt → α) : forceE x k = k x := by
  cases x <;> rfl

lemma forceN_eq {α : Type} (n : Nat) (k : Nat → α) : forceN n k = k n := by
  cases n <;> rfl

lemma forceCell_eq {α : Type} (c : Cell) (k : Cell → α) : forceCell c k = k c := by
  cases c with
  | none => rfl
  | some m => cases m <;> rfl

lemma forceBoard_eq : ∀ (b : Board) {α : Type} (k : Board → α), forceBoard b k = k b := by
  intro b
  induction b with
  | nil => intro α k; rfl
  | cons c t ih =>
      intro α k
      rw [forceBoard, forceCell_eq, ih]

lemma lineMatch_eq_lineWin {b : Board} {p : Nat × Nat × Nat} {x y z : Cell}
    (hx : b.getD p.1 none = x) (hy : b.getD p.2.1 none = y) (hz : b.getD p.2.2 none = z) :
    lineMatch b p = lineWin x y z := by
  cases x with
  | none => rw [lineMatch_none_of_getD hx, lineWin]
  | some m =>
      rw [lineMatch_ite hx, hy, hz, lineWin]
      by_cases hy2 : y = some m
      · by_cases hz2 : z = some m
        · rw [if_pos ⟨hy2, hz2⟩, decide_eq_true hy2, decide_eq_true hz2]
          rfl
        · rw [if_neg (fun hc => hz2 hc.2), decide_eq_true hy2, decide_eq_false hz2]
          rfl
      · rw [if_neg (fun hc => hy2 hc.1), decide_eq_false hy2]
        rfl

lemma callSet_eq {α : Type}
    (k : Cell → Cell → Cell → Cell → Cell → Cell → Cell → Cell → Cell → α) (g : Board → α)
    (hk : ∀ d0 d1 d2 d3 d4 d5 d6 d7 d8,
      k d0 d1 d2 d3 d4 d5 d6 d7 d8 = g [d0, d1, d2, d3, d4, d5, d6, d7, d8])
    (c0 c1 c2 c3 c4 c5 c6 c7 c8 : Cell) (i : Nat) (v : Cell) :
    callSet k c0 c1 c2 c3 c4 c5 c6 c7 c8 i v =
      g ([c0, c1, c2, c3, c4, c5, c6, c7, c8].set i v) := by
  rcases i with _|_|_|_|_|_|_|_|_|i
  · exact hk v c1 c2 c3 c4 c5 c6 c7 c8
  · exact hk c0 v c2 c3 c4 c5 c6 c7 c8
  · exact hk c0 c1 v c3 c4 c5 c6 c7 c8
  · exact hk c0 c1 c2 v c4 c5 c6 c7 c8
  · exact hk c0 c1 c2 c3 v c5 c6 c7 c8
  · exact hk c0 c1 c2 c3 c4 v c6 c7 c8
  · exact hk c0 c1 c2 c3 c4 c5 v c7 c8
  · exact hk c0 c1 c2 c3 c4 c5 c6 v c8
  · exact hk c0 c1 c2 c3 c4 c5 c6 c7 v
  · exact hk c0 c1 c2 c3 c4 c5 c6 c7 c8

lemma fastWinner_eq (c0 c1 c2 c3 c4 c5 c6 c7 c8 : Cell) :
    fastWinner c0 c1 c2 c3 c4 c5 c6 c7 c8 =
      checkWinner [c0, c1, c2, c3, c4, c5, c6, c7, c8] := by
  have e1 : lineMatch [c0, c1, c2, c3, c4, c5, c6, c7, c8] (0, 1, 2) = lineWin c0 c1 c2 :=
    lineMatch_eq_lineWin rfl rfl rfl
  have e2 : lineMatch [c0, c1, c2, c3, c4, c5, c6, c7, c8] (3, 4, 5) = lineWin c3 c4 c5 :=
    lineMatch_eq_lineWin rfl rfl rfl
  have e3 : lineMatch [c0, c1, c2, c3, c4, c5, c6, c7, c8] (6, 7, 8) = lineWin c6 c7 c8 :=
    lineMatch_eq_lineWin rfl rfl rfl
  have e4 : lineMatch [c0, c1, c2, c3, c4, c5, c6, c7, c8] (0, 3, 6) = lineWin c0 c3 c6 :=
    lineMatch_eq_lineWin rfl rfl rfl
  have e5 : lineMatch [c0, c1, c2, c3, c4, c5, c6, c7, c8] (1, 4, 7) = lineWin c1 c4 c7 :=
    lineMatch_eq_lineWin rfl rfl rfl
  have e6 : lineMatch [c0, c1, c2, c3, c4, c5, c6, c7, c8] (2, 5, 8) = lineWin c2 c5 c8 :=
    lineMatch_eq_lineWin rfl rfl rfl
  have e7 : lineMatch [c0, c1, c2, c3, c4, c5, c6, c7, c8] (0, 4, 8) = lineWin c0 c4 c8 :=
    lineMatch_eq_lineWin rfl rfl rfl
  have e8 : lineMatch [c0, c1, c2, c3, c4, c5, c6, c7, c8] (2, 4, 6) = lineWin c2 c4 c6 :=
    lineMatch_eq_lineWin rfl rfl rfl
  unfold fastWinner
  cases hv1 : lineWin c0 c1 c2 with
  | some m =>
      exact (checkWinner_of_findWin_some (by
        rw [patterns]
        exact findWin_cons_some (e1.trans hv1))).symm
  | none =>
  cases hv2 : lineWin c3 c4 c5 with
  | some m =>
      exact (checkWinner_of_findWin_some (by
        rw [patterns, findWin_cons_none (e1.trans hv1)]
        exact findWin_cons_some (e2.trans hv2))).symm
  | none =>
  cases hv3 : lineWin c6 c7 c8 with
  | some m =>
      exact (checkWinner_of_findWin_some (by
        rw [patterns, findWin_cons_none (e1.trans hv1), findWin_cons_none (e2.trans hv2)]
        exact findWin_cons_some (e3.trans hv3))).symm
  | none =>
  cases hv4 : lineWin c0 c3 c6 with
  | some m =>
      exact (checkWinner_of_findWin_some (by
        rw [patterns, findWin_cons_none (e1.trans hv1), findWin_cons_none (e2.trans hv2),
          findWin_cons_none (e3.trans hv3)]
        exact findWin_cons_some (e4.trans hv4))).symm
  | none =>
  cases hv5 : lineWin c1 c4 c7 with
  | some m =>
      exact (checkWinner_of_findWin_some (by
        rw [patterns, findWin_cons_none (e1.trans hv1), findWin_cons_none (e2.trans hv2),
          findWin_cons_none (e3.trans hv3), findWin_cons_none (e4.trans hv4)]
        exact findWin_cons_some (e5.trans hv5))).symm
  | none =>
  cases hv6 : lineWin c2 c5 c8 with
  | some m =>
      exact (checkWinner_of_findWin_some (by
        rw [patterns, findWin_cons_none (e1.trans hv1), findWin_cons_none (e2.trans hv2),
          findWin_cons_none (e3.trans hv3), findWin_cons_none (e4.trans hv4),
          findWin_cons_none (e5.trans hv5)]
        exact findWin_cons_some (e6.trans hv6))).symm
  | none =>
  cases hv7 : lineWin c0 c4 c8 with
  | some m =>
      exact (checkWinner_of_findWin_some (by
        rw [patterns, findWin_cons_none (e1.trans hv1), findWin_cons_none (e2.trans hv2),
          findWin_cons_none (e3.trans hv3), findWin_cons_none (e4.trans hv4),
          findWin_cons_none (e5.trans hv5), findWin_cons_none (e6.trans hv6)]
        exact findWin_cons_some (e7.trans hv7))).symm
  | none =>
  cases hv8 : lineWin c2 c4 c6 with
  | some m =>
      exact (checkWinner_of_findWin_some (by
        rw [patterns, findWin_cons_none (e1.trans hv1), findWin_cons_none (e2.trans hv2),
          findWin_cons_none (e3.trans hv3), findWin_cons_none (e4.trans hv4),
          findWin_cons_none (e5.trans hv5), findWin_cons_none (e6.trans hv6),
          findWin_cons_none (e7.trans hv7)]
        exact findWin_cons_some (e8.trans hv8))).symm
  | none =>
      have hfind : findWin [c0, c1, c2, c3, c4, c5, c6, c7, c8] patterns = none := by
        rw [patterns, findWin_cons_none (e1.trans hv1), findWin_cons_none (e2.trans hv2),
          findWin_cons_none (e3.trans hv3), findWin_cons_none (e4.trans hv4),
          findWin_cons_none (e5.trans hv5), findWin_cons_none (e6.trans hv6),
          findWin_cons_none (e7.trans hv7), findWin_cons_none (e8.trans hv8), findWin]
      rw [checkWinner_of_findWin_none hfind]
      show cond ([c0, c1, c2, c3, c4, c5, c6, c7, c8].all (fun c => c.isSome))
        Outcome.draw Outcome.ongoing = _
      cases hall : [c0, c1, c2, c3, c4, c5, c6, c7, c8].all (fun c => c.isSome) with
      | true => rfl
      | false => rfl

lemma fastMoves_eq (c0 c1 c2 c3 c4 c5 c6 c7 c8 : Cell) :
    fastMoves c0 c1 c2 c3 c4 c5 c6 c7 c8 = moves [c0, c1, c2, c3, c4, c5, c6, c7, c8] := by
  cases c0 <;> cases c1 <;> cases c2 <;> cases c3 <;> cases c4 <;> cases c5 <;> cases c6
    <;> cases c7 <;> cases c8 <;> rfl

lemma fastMaxLoop_eq
    (rec9 : Cell → Cell → Cell → Cell → Cell → Cell → Cell → Cell → Cell →
      Nat → Bool → EInt → EInt → EInt)
    (rec : Board → Nat → Bool → EInt → EInt → EInt)
    (hrec : ∀ d0 d1 d2 d3 d4 d5 d6 d7 d8 d2n f2 a2 be2,
      rec9 d0 d1 d2 d3 d4 d5 d6 d7 d8 d2n f2 a2 be2
        = rec [d0, d1, d2, d3, d4, d5, d6, d7, d8] d2n f2 a2 be2)
    (c0 c1 c2 c3 c4 c5 c6 c7 c8 : Cell) (d : Nat) (be : EInt) :
    ∀ (l : List Nat) (m a : EInt),
      fastMaxLoop rec9 c0 c1 c2 c3 c4 c5 c6 c7 c8 d be l m a =
        maxLoop rec [c0, c1, c2, c3, c4, c5, c6, c7, c8] d be l m a := by
  intro l
  induction l with
  | nil => intro m a; rw [fastMaxLoop, maxLoop]
  | cons mv rest ih =>
      intro m a
      rw [fastMaxLoop, forceE_eq]
      rw [callSet_eq _ (fun B => rec B (d + 1) false a be)
        (fun d0 d1 d2 d3 d4 d5 d6 d7 d8 => hrec d0 d1 d2 d3 d4 d5 d6 d7 d8 (d + 1) false a be),
        maxLoop_cons]
      simp only [emax_eq]
      rw [EInt.cond_ble]
      by_cases hcut : be ≤ max a
          (rec ([c0, c1, c2, c3, c4, c5, c6, c7, c8].set mv (some Mark.O)) (d + 1) false a be)
      · rw [if_pos hcut, if_pos hcut]
      · rw [if_neg hcut, if_neg hcut, ih]

lemma fastMinLoop_eq
    (rec9 : Cell → Cell → Cell → Cell → Cell → Cell → Cell → Cell → Cell →
      Nat → Bool → EInt → EInt → EInt)
    (rec : Board → Nat → Bool → EInt → EInt → EInt)
    (hrec : ∀ d0 d1 d2 d3 d4 d5 d6 d7 d8 d2n f2 a2 be2,
      rec9 d0 d1 d2 d3 d4 d5 d6 d7 d8 d2n f2 a2 be2
        = rec [d0, d1, d2, d3, d4, d5, d6, d7, d8] d2n f2 a2 be2)
    (c0 c1 c2 c3 c4 c5 c6 c7 c8 : Cell) (d : Nat) (al : EInt) :
    ∀ (l : List Nat) (m be : EInt),
      fastMinLoop rec9 c0 c1 c2 c3 c4 c5 c6 c7 c8 d al l m be =
        minLoop rec [c0, c1, c2, c3, c4, c5, c6, c7, c8] d al l m be := by
  intro l
  induction l with
  | nil => intro m be; rw [fastMinLoop, minLoop]
  | cons mv rest ih =>
      intro m be
      rw [fastMinLoop, forceE_eq]
      rw [callSet_eq _ (fun B => rec B (d + 1) true al be)
        (fun d0 d1 d2 d3 d4 d5 d6 d7 d8 => hrec d0 d1 d2 d3 d4 d5 d6 d7 d8 (d + 1) true al be),
        minLoop_cons]
      simp only [emin_eq]
      rw [EInt.cond_ble]
      by_cases hcut : min be
          (rec ([c0, c1, c2, c3, c4, c5, c6, c7, c8].set mv (some Mark.X)) (d + 1) true al be) ≤ al
      · rw [if_pos hcut, if_pos hcut]
      · rw [if_neg hcut, if_neg hcut, ih]

lemma fastGo_eq : ∀ (fuel : Nat) (c0 c1 c2 c3 c4 c5 c6 c7 c8 : Cell) (d : Nat) (f : Bool)
    (al be : EInt), fastGo fuel c0 c1 c2 c3 c4 c5 c6 c7 c8 d f al be
      = minimaxGo fuel [c0, c1, c2, c3, c4, c5, c6, c7, c8] d f al be := by
  intro fuel
  induction fuel with
  | zero => intro c0 c1 c2 c3 c4 c5 c6 c7 c8 d f al be; rw [fastGo, minimaxGo]
  | succ n ih =>
      intro c0 c1 c2 c3 c4 c5 c6 c7 c8 d f al be
      rw [fastGo, fastWinner_eq]
      cases hw : checkWinner [c0, c1, c2, c3, c4, c5, c6, c7, c8] with
      | win m =>
          cases m with
          | O => rw [minimaxGo_win_O hw]
          | X => rw [minimaxGo_win_X hw]
      | draw => rw [minimaxGo_draw hw]
      | ongoing =>
          cases f with
          | true =>
              rw [minimaxGo_ongoing_max hw]
              show fastMaxLoop (fastGo n) c0 c1 c2 c3 c4 c5 c6 c7 c8 d be
                (fastMoves c0 c1 c2 c3 c4 c5 c6 c7 c8) EInt.negInf al = _
              rw [fastMoves_eq]
              exact fastMaxLoop_eq (fastGo n) (minimaxGo n)
                (fun d0 d1 d2 d3 d4 d5 d6 d7 d8 d2n f2 a2 be2 =>
                  ih d0 d1 d2 d3 d4 d5 d6 d7 d8 d2n f2 a2 be2)
                c0 c1 c2 c3 c4 c5 c6 c7 c8 d be _ EInt.negInf al
          | false =>
              rw [minimaxGo_ongoing_min hw]
              show fastMinLoop (fastGo n) c0 c1 c2 c3 c4 c5 c6 c7 c8 d al
                (fastMoves c0 c1 c2 c3 c4 c5 c6 c7 c8) EInt.posInf be = _
              rw [fastMoves_eq]
              exact fastMinLoop_eq (fastGo n) (minimaxGo n)
                (fun d0 d1 d2 d3 d4 d5 d6 d7 d8 d2n f2 a2 be2 =>
                  ih d0 d1 d2 d3 d4 d5 d6 d7 d8 d2n f2 a2 be2)
                c0 c1 c2 c3 c4 c5 c6 c7 c8 d al _ EInt.posInf be

lemma fastScore_eq (c0 c1 c2 c3 c4 c5 c6 c7 c8 : Cell) (i : Nat) :
    fastScore c0 c1 c2 c3 c4 c5 c6 c7 c8 i = candScore [c0, c1, c2, c3, c4, c5, c6, c7, c8] i := by
  rw [fastScore, callSet_eq _ (fun B => minimax B 0 false EInt.negInf EInt.posInf)
    (fun d0 d1 d2 d3 d4 d5 d6 d7 d8 => by
      rw [fastGo_eq]
      rfl)]
  rfl

lemma fastBmLoop_eq (c0 c1 c2 c3 c4 c5 c6 c7 c8 : Cell) :
    ∀ (l : List Nat) (top : EInt) (best : Nat),
      fastBmLoop c0 c1 c2 c3 c4 c5 c6 c7 c8 l top best =
        bmLoop [c0, c1, c2, c3, c4, c5, c6, c7, c8] l top best := by
  intro l
  induction l with
  | nil => intro top best; rw [fastBmLoop, bmLoop]
  | cons i rest ih =>
      intro top best
      rw [fastBmLoop, forceE_eq]
      rw [fastScore_eq, bmLoop_cons_cand, EInt.cond_ble_lt]
      by_cases h : top < candScore [c0, c1, c2, c3, c4, c5, c6, c7, c8] i
      · rw [if_pos h, if_pos h, ih]
      · rw [if_neg h, if_neg h, ih]

lemma fastBestMove_eq : ∀ (b : Board), fastBestMove b = getBestMove b := by
  intro b
  rcases b with _ | ⟨c0, _ | ⟨c1, _ | ⟨c2, _ | ⟨c3, _ | ⟨c4, _ | ⟨c5, _ | ⟨c6, _ | ⟨c7,
    _ | ⟨c8, _ | ⟨c9, t⟩⟩⟩⟩⟩⟩⟩⟩⟩⟩
  · rfl
  · rfl
  · rfl
  · rfl
  · rfl
  · rfl
  · rfl
  · rfl
  · rfl
  · show fastBmLoop c0 c1 c2 c3 c4 c5 c6 c7 c8 (fastMoves c0 c1 c2 c3 c4 c5 c6 c7 c8)
      EInt.negInf 0 = _
    rw [fastMoves_eq, fastBmLoop_eq]
    rfl
  · rfl

lemma fastPlayFrom_eq : ∀ (n : Nat) (b : Board) (xT : Bool),
    fastPlayFrom n b xT = playFrom n b xT := by
  intro n
  induction n with
  | zero => intro b xT; rw [fastPlayFrom, playFrom]
  | succ k ih =>
      intro b xT
      rw [fastPlayFrom, playFrom]
      cases hw : checkWinner b with
      | ongoing =>
          rw [if_pos rfl, forceN_eq]
          rw [forceBoard_eq, fastBestMove_eq, ih]
          cases xT <;> rfl
      | win m =>
          rw [if_neg (fun h => Outcome.noConfusion h)]
      | draw =>
          rw [if_neg (fun h => Outcome.noConfusion h)]

/-! ## The source evaluator meets the specification's description -/

lemma lineMatch_eq_spec (b : Board) (p : Nat × Nat × Nat) :
    lineMatch b p = specLineWinner b p := by
  cases h1 : b.getD p.1 none with
  | none =>
      rw [lineMatch_none_of_getD h1, specLineWinner,
        if_neg (fun hc => by rw [h1] at hc; exact Option.noConfusion hc.1),
        if_neg (fun hc => by rw [h1] at hc; exact Option.noConfusion hc.1)]
  | some m =>
      cases m with
      | X =>
          rw [lineMatch_ite h1, specLineWinner]
          by_cases h23 : b.getD p.2.1 none = some Mark.X ∧ b.getD p.2.2 none = some Mark.X
          · rw [if_pos h23, if_pos ⟨h1, h23.1, h23.2⟩]
          · rw [if_neg h23, if_neg (fun hc => h23 ⟨hc.2.1, hc.2.2⟩),
              if_neg (fun hc => by
                rw [h1] at hc
                exact Mark.noConfusion (Option.some.inj hc.1))]
      | O =>
          rw [lineMatch_ite h1, specLineWinner]
          by_cases h23 : b.getD p.2.1 none = some Mark.O ∧ b.getD p.2.2 none = some Mark.O
          · rw [if_pos h23,
              if_neg (fun hc => by
                rw [h1] at hc
                exact Mark.noConfusion (Option.some.inj hc.1)),
              if_pos ⟨h1, h23.1, h23.2⟩]
          · rw [if_neg h23,
              if_neg (fun hc => by
                rw [h1] at hc
                exact Mark.noConfusion (Option.some.inj hc.1)),
              if_neg (fun hc => h23 ⟨hc.2.1, hc.2.2⟩)]

lemma findWin_eq_findSome (b : Board) : ∀ l : List (Nat × Nat × Nat),
    findWin b l = l.findSome? (specLineWinner b) := by
  intro l
  induction l with
  | nil => rw [findWin, List.findSome?_nil]
  | cons p rest ih =>
      cases hm : lineMatch b p with
      | some m =>
          rw [findWin_cons_some hm, List.findSome?_cons, ← lineMatch_eq_spec, hm]
      | none =>
          rw [findWin_cons_none hm, ih, List.findSome?_cons, ← lineMatch_eq_spec, hm]

lemma all_isSome_eq_not_any (b : Board) :
    b.all (fun c => c.isSome) = ! b.any (fun c => decide (c = none)) := by
  induction b with
  | nil => rfl
  | cons c t ih =>
      rw [List.all_cons, List.any_cons, Bool.not_or, ih]
      have hc : c.isSome = ! decide (c = none) := by cases c <;> rfl
      rw [hc]

lemma checkWinner_eq_spec (b : Board) : checkWinner b = specOutcome b := by
  rw [checkWinner, specOutcome, findWin_eq_findSome]
  cases hf : patterns.findSome? (specLineWinner b) with
  | some m => rfl
  | none =>
      rw [all_isSome_eq_not_any]
      cases ha : b.any (fun c => decide (c = none)) with
      | true => rfl
      | false => rfl

/-! ## Range of the returned move -/

lemma getBestMove_mem {b : Board} (h : none ∈ b) : getBestMove b ∈ moves b := by
  obtain ⟨i, hlen, hget⟩ : ∃ i, i < b.length ∧ b.getD i none = none := by
    obtain ⟨i, hlen, hget⟩ := List.getElem_of_mem h
    refine ⟨i, hlen, ?_⟩
    rw [List.getD_eq_getElem?_getD, List.getElem?_eq_getElem hlen, hget]
    rfl
  obtain ⟨n, hn⟩ := candScore_fin b i
  exact bmLoop_mem_of b (moves b) EInt.negInf 0
    ⟨i, mem_moves.mpr ⟨hlen, hget⟩, by rw [hn]; exact EInt.negInf_lt_fin n⟩

/-- With no candidate at all, the loop is never entered and the
initialization value `bestMove = 0` is returned unchanged. -/
lemma getBestMove_no_moves {b : Board} (h : moves b = []) : getBestMove b = 0 := by
  rw [getBestMove, h, bmLoop]

/-! ## The claims -/

/-- C1: for every 9-cell board, `checkWinner` returns the win for a mark
exactly when some win-line of the fixed 8-line set (rows, then columns, then
diagonals, first match deciding) has all three cells equal to that non-empty
mark; draw if no line matches and no cell is empty; ongoing otherwise —
i.e. the source evaluator agrees with the outcome modelled from the
specification's words. -/
theorem C1_checkWinner_meets_spec (b : Board) (_h9 : b.length = 9) :
    checkWinner b = specOutcome b :=
  checkWinner_eq_spec b

theorem C1_checkWinner_meets_spec_witness :
    checkWinner [some Mark.X, some Mark.X, some Mark.X, none, none, none, none, none, none]
        = specOutcome [some Mark.X, some Mark.X, some Mark.X, none, none, none, none, none, none]
      ∧ checkWinner [some Mark.X, some Mark.X, some Mark.X, none, none, none, none, none, none]
        = Outcome.win Mark.X :=
  ⟨C1_checkWinner_meets_spec _ rfl, by decide⟩

/-- C2: for every 9-cell board, depth and flag, the alpha-beta search called
with initial bounds `alpha = -∞`, `beta = +∞` returns exactly the score of
the plain minimax recursion with the `beta <= alpha` cutoff removed:
pruning never changes the returned value. -/
theorem C2_pruning_preserves_value (b : Board) (d : Nat) (f : Bool) (_h9 : b.length = 9) :
    minimax b d f EInt.negInf EInt.posInf = npMinimax b d f :=
  minimax_eq_np b d f

theorem C2_pruning_preserves_value_witness :
    minimax [some Mark.X, some Mark.O, some Mark.X, some Mark.O, none, none, none, none, none]
        0 true EInt.negInf EInt.posInf
      = npMinimax [some Mark.X, some Mark.O, some Mark.X, some Mark.O, none, none, none,
        none, none] 0 true :=
  C2_pruning_preserves_value _ 0 true rfl

/-- C3: on every 9-cell board where placing `O` on some empty cell `i`
immediately completes a win-line for `O`, `getBestMove` returns an empty cell
whose placement immediately wins for `O` (never a non-winning cell); and on
the concrete board `[O,O,·,X,X,·,·,·,·]` it returns index 2, completing O's
win rather than blocking X. -/
theorem C3_immediate_win_preference :
    (∀ (b : Board) (i : Nat), b.length = 9 → i < 9 → b.getD i none = none →
        checkWinner (b.set i (some Mark.O)) = Outcome.win Mark.O →
        b.getD (getBestMove b) none = none ∧
          checkWinner (b.set (getBestMove b) (some Mark.O)) = Outcome.win Mark.O)
      ∧ getBestMove [some Mark.O, some Mark.O, none, some Mark.X, some Mark.X, none,
          none, none, none] = 2 := by
  refine ⟨fun b i h9 hi9 hie hwin => getBestMove_wins h9 hi9 hie hwin, ?_⟩
  rw [← fastBestMove_eq]
  decide

/-- C4: on every non-terminal 9-cell board where exactly one empty cell `t`
would complete a win-line for the opponent `X`, and no empty cell gives `O`
an immediate win, `getBestMove` returns the blocking cell `t`. -/
theorem C4_forced_block (b : Board) (t : Nat) (h9 : b.length = 9)
    (hong : checkWinner b = Outcome.ongoing)
    (ht9 : t < 9) (hte : b.getD t none = none)
    (htwin : checkWinner (b.set t (some Mark.X)) = Outcome.win Mark.X)
    (huniq : ∀ k, k < 9 → b.getD k none = none →
      checkWinner (b.set k (some Mark.X)) = Outcome.win Mark.X → k = t)
    (hnoO : ∀ k, k < 9 → b.getD k none = none →
      checkWinner (b.set k (some Mark.O)) ≠ Outcome.win Mark.O) :
    getBestMove b = t :=
  getBestMove_blocks h9 hong ht9 hte htwin huniq hnoO

theorem C4_forced_block_witness :
    getBestMove [some Mark.X, some Mark.X, none, none, some Mark.O, none, none, none, none]
      = 2 :=
  C4_forced_block _ 2 rfl (by decide) (by decide) (by decide) (by decide)
    (by decide) (by decide)

/-- C5: after `minimax` returns, the board holds exactly the cell values it
held before the call, and `getBestMove` likewise leaves its board unchanged
as observed by the caller: the state-passing embeddings, which thread the
mutated array through every place/undo and the pruning early exit, hand back
the original board. -/
theorem C5_board_restored (b : Board) (d : Nat) (f : Bool) (al be : EInt) :
    (minimaxS b d f al be).2 = b ∧ (getBestMoveS b).2 = b :=
  ⟨by rw [minimaxS_eq], by rw [getBestMoveS_eq]⟩

/-- C6, counterexample to the claim as stated: `getBestMove` does not fail
explicitly on a board with no legal move.  On the full draw board it silently
returns index 0, a cell that is already occupied. -/
theorem C6_full_board_counterexample :
    getBestMove [some Mark.X, some Mark.O, some Mark.X, some Mark.O, some Mark.X,
        some Mark.O, some Mark.O, some Mark.X, some Mark.O] = 0
      ∧ [some Mark.X, some Mark.O, some Mark.X, some Mark.O, some Mark.X,
        some Mark.O, some Mark.O, some Mark.X, some Mark.O].getD 0 none = some Mark.X := by
  constructor
  · rw [getBestMove_no_moves (by decide)]
  · rfl

/-- C6, amended: `getBestMove` never fails explicitly on a board with no
legal move — it always silently returns a plain index.  On a full board the
candidate enumeration is empty, the loop is never entered, and the function
returns its initialization value `bestMove = 0`, which may point at an
occupied cell.  On a terminal board that still has empty cells the source
treats every empty cell as a candidate, so the loop does run and returns an
ordinary index with no error either: on `[X,X,X]` followed by six empty
cells (X has already won) it returns 3, the first empty cell. -/
theorem C6_no_explicit_failure :
    (∀ b : Board, moves b = [] → getBestMove b = 0)
      ∧ getBestMove [some Mark.X, some Mark.X, some Mark.X, none, none, none,
          none, none, none] = 3 := by
  refine ⟨fun b h => getBestMove_no_moves h, ?_⟩
  rw [← fastBestMove_eq]
  decide

theorem C6_no_explicit_failure_witness :
    getBestMove [some Mark.X, some Mark.O, some Mark.X, some Mark.O, some Mark.X,
        some Mark.O, some Mark.O, some Mark.X, some Mark.O] = 0 :=
  C6_no_explicit_failure.1 _ (by decide)

/-- C7: starting from the all-empty board, if both sides pick every move by
calling `getBestMove` on the current board and placing their own mark at the
returned index until the board is terminal (X first), the game ends with the
evaluator reporting a draw. -/
theorem C7_selfplay_draw : checkWinner (playFrom 9 emptyBoard true) = Outcome.draw := by
  rw [← fastPlayFrom_eq]
  decide!

/-- C8: on every 9-cell board with at least one empty cell, `getBestMove`
returns an index in `[0,8]` whose cell on the input board is empty, so the
returned placement never overwrites an occupied cell. -/
theorem C8_returns_empty_in_range (b : Board) (h9 : b.length = 9) (hne : none ∈ b) :
    getBestMove b < 9 ∧ b.getD (getBestMove b) none = none := by
  obtain ⟨hlt, hget⟩ := mem_moves.mp (getBestMove_mem hne)
  rw [h9] at hlt
  exact ⟨hlt, hget⟩

theorem C8_returns_empty_in_range_witness :
    getBestMove [some Mark.X, some Mark.O, some Mark.X, some Mark.O, some Mark.X,
        some Mark.O, some Mark.O, some Mark.X, none] < 9
      ∧ [some Mark.X, some Mark.O, some Mark.X, some Mark.O, some Mark.X,
        some Mark.O, some Mark.O, some Mark.X, none].getD
          (getBestMove [some Mark.X, some Mark.O, some Mark.X, some Mark.O, some Mark.X,
            some Mark.O, some Mark.O, some Mark.X, none]) none = none :=
  C8_returns_empty_in_range _ rfl (by decide)

/-- C9: `getBestMove` is deterministic — its result depends only on the board
contents, and a second call on the state handed back by a first call (which
is the identical board) returns the identical index. -/
theorem C9_deterministic (b1 b2 : Board) (h : b1 = b2) :
    getBestMove b1 = getBestMove b2
      ∧ (getBestMoveS (getBestMoveS b1).2).1 = getBestMove b2 := by
  subst h
  refine ⟨rfl, ?_⟩
  rw [getBestMoveS_eq, getBestMoveS_eq]

theorem C9_deterministic_witness :
    getBestMove [some Mark.O, some Mark.O, none, some Mark.X, some Mark.X, none,
        none, none, none]
      = getBestMove [some Mark.O, some Mark.O, none, some Mark.X, some Mark.X, none,
        none, none, none]
      ∧ (getBestMoveS (getBestMoveS [some Mark.O, some Mark.O, none, some Mark.X,
          some Mark.X, none, none, none, none]).2).1
        = getBestMove [some Mark.O, some Mark.O, none, some Mark.X, some Mark.X, none,
          none, none, none] :=
  C9_deterministic _ _ rfl

/-- C10: the embedded search is total and its recursion well-founded: each
recursive call fills an empty cell, so the number of empty cells bounds the
depth, and any fuel above `countNone b` computes the same value as `minimax`
(which runs on fuel `countNone b + 1`). -/
theorem C10_terminates (b : Board) (d : Nat) (f : Bool) (al be : EInt) (fuel : Nat)
    (h : countNone b < fuel) :
    minimaxGo fuel b d f al be = minimax b d f al be :=
  minimaxGo_fuel fuel (countNone b + 1) b d f al be h (Nat.lt_succ_self _)

theorem C10_terminates_witness :
    minimaxGo 10 [some Mark.X, some Mark.O, some Mark.X, some Mark.O, some Mark.X,
        some Mark.O, some Mark.O, some Mark.X, none] 0 true EInt.negInf EInt.posInf
      = minimax [some Mark.X, some Mark.O, some Mark.X, some Mark.O, some Mark.X,
        some Mark.O, some Mark.O, some Mark.X, none] 0 true EInt.negInf EInt.posInf :=
  C10_terminates _ 0 true EInt.negInf EInt.posInf 10 (by decide)
